import Mathlib

/-!
Shallow embedding of `src/identifier.js` (gweid/highlight2api).

Modelling conventions:
* A JavaScript string is modelled as a `List Nat` of Unicode code points
  (every element `< 0x110000`; lone surrogates are allowed, as in JS).
* A byte buffer (`Buffer`, `Uint8Array`) is a `List Nat` of bytes (`< 256`).
* Node's lenient decoders never throw: `Buffer.toString("utf-8")` replaces
  invalid byte sequences with U+FFFD and `Buffer.from(s, "base64")` skips
  characters outside the base64 alphabet.  The embedding mirrors this with
  total functions `utf8DecodeLenient` and `base64DecodeLenient`.
* `crypto.randomBytes` / `crypto.getRandomValues` outputs are passed in as
  explicit arguments, and the AES-256 block cipher of `createCipheriv` is a
  parameter `E : List Nat → List Nat → List Nat` (key, then 16-byte block),
  with its inverse `D` constrained by hypotheses where a claim needs them.
-/

/-- Code points of a Lean string literal, used to write concrete
JS strings compactly. -/
def strCodes (s : String) : List Nat :=
  s.data.map Char.toNat

/-! ### Hex encoding (Buffer.toString("hex"), toString(16).padStart(2,"0")) -/

/-- Lowercase hex digit character code for a value `< 16`. -/
def hexDigit (n : Nat) : Nat :=
  if n < 10 then 48 + n else 87 + n

/-- Two lowercase hex digits of one byte, as in
`n.toString(16).padStart(2, "0")` for `n < 256`. -/
def hexByte (b : Nat) : List Nat :=
  [hexDigit (b / 16), hexDigit (b % 16)]

/-- Hex encoding of a byte list, as in `Buffer.toString("hex")`. -/
def hexEncode (bs : List Nat) : List Nat :=
  bs.flatMap hexByte

/-- Value of one hex digit character (accepting both cases), `none` when the
character is not a hex digit. -/
def hexVal (c : Nat) : Option Nat :=
  if 48 ≤ c ∧ c ≤ 57 then some (c - 48)
  else if 97 ≤ c ∧ c ≤ 102 then some (c - 87)
  else if 65 ≤ c ∧ c ≤ 70 then some (c - 55)
  else none

/-- Hex decoding of an even-length hex string into bytes, `none` on a
non-hex character or odd length. -/
def hexDecode : List Nat → Option (List Nat)
  | [] => some []
  | [_] => none
  | c1 :: c2 :: rest =>
    match hexVal c1, hexVal c2, hexDecode rest with
    | some h, some l, some bs => some ((h * 16 + l) :: bs)
    | _, _, _ => none

/-! ### Base64 (Buffer.from(s, "base64") / forward encoding) -/

/-- Character code of the standard base64 alphabet entry `n < 64`. -/
def b64Char (n : Nat) : Nat :=
  if n < 26 then 65 + n
  else if n < 52 then 71 + n
  else if n < 62 then n - 4
  else if n = 62 then 43
  else 47

/-- Inverse of the base64 alphabet: 6-bit value of a character code, `none`
for characters outside the alphabet (including the padding `=`). -/
def b64Val (c : Nat) : Option Nat :=
  if 65 ≤ c ∧ c ≤ 90 then some (c - 65)
  else if 97 ≤ c ∧ c ≤ 122 then some (c - 71)
  else if 48 ≤ c ∧ c ≤ 57 then some (c + 4)
  else if c = 43 then some 62
  else if c = 47 then some 63
  else none

/-- Standard base64 encoding of a byte list, with `=` padding. -/
def base64Encode : List Nat → List Nat
  | [] => []
  | [a] => [b64Char (a / 4), b64Char (a % 4 * 16), 61, 61]
  | [a, b] => [b64Char (a / 4), b64Char (a % 4 * 16 + b / 16), b64Char (b % 16 * 4), 61]
  | a :: b :: c :: rest =>
    b64Char (a / 4) :: b64Char (a % 4 * 16 + b / 16) ::
    b64Char (b % 16 * 4 + c / 64) :: b64Char (c % 64) :: base64Encode rest

/-- Regroup a list of 6-bit values into bytes; a trailing group of two or
three values contributes one or two bytes, a lone trailing value is dropped
(Node's forgiving decoder). -/
def b64Regroup : List Nat → List Nat
  | v1 :: v2 :: v3 :: v4 :: rest =>
    (v1 * 4 + v2 / 16) :: (v2 % 16 * 16 + v3 / 4) :: (v3 % 4 * 64 + v4) :: b64Regroup rest
  | [v1, v2] => [v1 * 4 + v2 / 16]
  | [v1, v2, v3] => [v1 * 4 + v2 / 16, v2 % 16 * 16 + v3 / 4]
  | _ => []

/-- Node's lenient base64 decoding (`Buffer.from(s, "base64")`): characters
outside the alphabet (including `=`) are skipped, then 6-bit values are
regrouped into bytes. -/
def base64DecodeLenient (s : List Nat) : List Nat :=
  b64Regroup (s.filterMap b64Val)

/-! ### UTF-8 -/

/-- UTF-8 encoding of one Unicode code point (`Buffer.from(str, "utf8")`
for strings without lone surrogates). -/
def utf8EncodeChar (n : Nat) : List Nat :=
  if n < 0x80 then [n]
  else if n < 0x800 then [0xC0 + n / 64, 0x80 + n % 64]
  else if n < 0x10000 then [0xE0 + n / 4096, 0x80 + n / 64 % 64, 0x80 + n % 64]
  else [0xF0 + n / 262144, 0x80 + n / 4096 % 64, 0x80 + n / 64 % 64, 0x80 + n % 64]

/-- UTF-8 encoding of a code-point list. -/
def utf8Encode (s : List Nat) : List Nat :=
  s.flatMap utf8EncodeChar

/-- Whether a byte is a UTF-8 continuation byte. -/
def isCont (c : Nat) : Bool :=
  0x80 ≤ c ∧ c < 0xC0

/-- Decode one UTF-8 sequence starting at lead byte `b` followed by `rest`:
the code point and the number of continuation bytes consumed from `rest`.
An invalid sequence yields `(0xFFFD, 0)` — the replacement character, with
decoding resuming right after the lead byte (Node resumes at the first
invalid byte of a partially valid sequence; the difference is visible only
on malformed inputs, which no constant table produces). -/
def utf8Step (b : Nat) (rest : List Nat) : Nat × Nat :=
  if b < 0x80 then (b, 0)
  else if 0xC2 ≤ b ∧ b < 0xE0 then
    if isCont (rest.getD 0 0) then ((b - 0xC0) * 64 + (rest.getD 0 0 - 0x80), 1)
    else (0xFFFD, 0)
  else if 0xE0 ≤ b ∧ b < 0xF0 then
    if ((if b = 0xE0 then decide (0xA0 ≤ rest.getD 0 0 ∧ rest.getD 0 0 < 0xC0)
         else if b = 0xED then decide (0x80 ≤ rest.getD 0 0 ∧ rest.getD 0 0 < 0xA0)
         else isCont (rest.getD 0 0)) && isCont (rest.getD 1 0)) = true then
      ((b - 0xE0) * 4096 + (rest.getD 0 0 - 0x80) * 64 + (rest.getD 1 0 - 0x80), 2)
    else (0xFFFD, 0)
  else if 0xF0 ≤ b ∧ b < 0xF5 then
    if ((if b = 0xF0 then decide (0x90 ≤ rest.getD 0 0 ∧ rest.getD 0 0 < 0xC0)
         else if b = 0xF4 then decide (0x80 ≤ rest.getD 0 0 ∧ rest.getD 0 0 < 0x90)
         else isCont (rest.getD 0 0)) && isCont (rest.getD 1 0) && isCont (rest.getD 2 0)) =
        true then
      ((b - 0xF0) * 262144 + (rest.getD 0 0 - 0x80) * 4096 + (rest.getD 1 0 - 0x80) * 64 +
        (rest.getD 2 0 - 0x80), 3)
    else (0xFFFD, 0)
  else (0xFFFD, 0)

/-- Fuel-driven lenient UTF-8 decoding loop; `fuel` bounds the number of
decoded characters, so any `fuel ≥ l.length` computes the full decoding. -/
def utf8DecodeLoop : Nat → List Nat → List Nat
  | 0, _ => []
  | _ + 1, [] => []
  | fuel + 1, b :: rest =>
    (utf8Step b rest).1 :: utf8DecodeLoop fuel (rest.drop (utf8Step b rest).2)

/-- Lenient UTF-8 decoding (`Buffer.toString("utf-8")`): a well-formed
sequence decodes to its code points; invalid sequences decode to U+FFFD
instead of failing. -/
def utf8DecodeLenient (l : List Nat) : List Nat :=
  utf8DecodeLoop l.length l

/-- Strict UTF-8 validity of a byte list (used to state malformedness;
Node itself never rejects, see `utf8DecodeLenient`). -/
def utf8ValidBytes : List Nat → Bool
  | [] => true
  | b :: rest =>
    if b < 0x80 then utf8ValidBytes rest
    else if 0xC2 ≤ b ∧ b < 0xE0 then
      match rest with
      | c1 :: r => isCont c1 && utf8ValidBytes r
      | [] => false
    else if 0xE0 ≤ b ∧ b < 0xF0 then
      match rest with
      | c1 :: c2 :: r =>
        (if b = 0xE0 then decide (0xA0 ≤ c1 ∧ c1 < 0xC0)
         else if b = 0xED then decide (0x80 ≤ c1 ∧ c1 < 0xA0)
         else isCont c1) && isCont c2 && utf8ValidBytes r
      | _ => false
    else if 0xF0 ≤ b ∧ b < 0xF5 then
      match rest with
      | c1 :: c2 :: c3 :: r =>
        (if b = 0xF0 then decide (0x90 ≤ c1 ∧ c1 < 0xC0)
         else if b = 0xF4 then decide (0x80 ≤ c1 ∧ c1 < 0x90)
         else isCont c1) && isCont c2 && isCont c3 && utf8ValidBytes r
      | _ => false
    else false

/-- A code point a JS string may hold at one position (any UTF-16 code unit
or paired astral code point). -/
def jsChar (n : Nat) : Prop :=
  n < 0x110000

/-- A Unicode scalar value: a code point that is not a lone surrogate. -/
def scalarValue (n : Nat) : Prop :=
  n < 0xD800 ∨ (0xE000 ≤ n ∧ n < 0x110000)

instance (n : Nat) : Decidable (jsChar n) := by unfold jsChar; infer_instance

instance (n : Nat) : Decidable (scalarValue n) := by unfold scalarValue; infer_instance

/-! ### The constant tables and the descrambler (`Hr`, `jr`, `Ah`, `Fl`) -/

/-- A scrambled constant table: byte values `r` and permutation `m`. -/
structure ScrambledConstant where
  r : List Nat
  m : List Nat

/-- First constant table (yields the key-derivation salt). -/
def Hr : ScrambledConstant :=
  { r := [87, 78, 72, 56, 79, 48, 122, 79, 107, 104, 82, 119, 51, 100, 78, 90,
          85, 85, 69, 107, 90, 116, 87, 48, 108, 53, 83, 84, 70, 81, 121, 69],
    m := [27, 26, 25, 22, 24, 21, 17, 12, 30, 19, 20, 14, 31, 8, 18, 10,
          13, 5, 29, 7, 16, 6, 28, 23, 9, 15, 4, 0, 11, 2, 3, 1] }

/-- Second constant table (yields the static API credential). -/
def jr : ScrambledConstant :=
  { r := [87, 90, 109, 107, 53, 105, 81, 89, 103, 107, 68, 49, 68, 105, 106, 77,
          49, 106, 53, 78, 77, 78, 106, 106, 61, 77, 89, 51, 66, 79, 86, 89,
          106, 65, 106, 52, 89, 77, 87, 106, 89, 122, 78, 90, 65, 89, 50, 105,
          61, 90, 106, 66, 48, 53, 71, 89, 87, 52, 81, 84, 78, 90, 74, 78,
          103, 50, 70, 79, 51, 50, 50, 77, 122, 108, 84, 81, 120, 90, 89, 89,
          89, 79, 119, 122, 121, 108, 69, 77],
    m := [65, 20, 1, 6, 31, 63, 74, 12, 85, 78, 33, 3, 41, 19, 45, 52,
          75, 21, 23, 16, 56, 36, 5, 71, 87, 68, 72, 15, 18, 32, 82, 8,
          17, 54, 83, 35, 28, 48, 49, 77, 30, 25, 10, 38, 22, 50, 29, 11,
          86, 64, 57, 70, 47, 67, 81, 44, 61, 7, 58, 13, 84, 76, 42, 24,
          46, 37, 62, 80, 27, 51, 73, 34, 69, 39, 53, 2, 79, 60, 26, 0,
          66, 40, 55, 9, 59, 43, 14, 4] }

/-- IV length used by the encipherer (`const Sh = 16`). -/
def Sh : Nat := 16

/-- Sequential in-place writes `t[p] := v`, later writes winning. -/
def scatterWrites : List (Nat × Nat) → List Nat → List Nat
  | [], t => t
  | (p, v) :: rest, t => scatterWrites rest (t.set p v)

/-- `Ah(n, e)`: builds `t` of length `n.length` and sets `t[e[s]] = n[s]`
for each `s`; positions never written stay `0` (a JS hole byte-coerces
to `0` in `Buffer.from`). -/
def Ah (n e : List Nat) : List Nat :=
  scatterWrites (e.zip n) (List.replicate n.length 0)

/-- `Fl(n, e)`: unscramble via `Ah`, read the bytes as UTF-8 text, decode
that text as base64, reverse the bytes, and read them as UTF-8 text. -/
def Fl (n e : List Nat) : List Nat :=
  utf8DecodeLenient (List.reverse (base64DecodeLenient (utf8DecodeLenient (Ah n e))))

/-! ### SHA-256, HMAC, PBKDF2 (model of Node `crypto.pbkdf2Sync`) -/

/-- Truncation to a 32-bit word. -/
def w32 (n : Nat) : Nat := n % 4294967296

/-- Right rotation of a 32-bit word by `k` bits. -/
def rotr32 (k n : Nat) : Nat :=
  w32 (n / 2 ^ k + n % 2 ^ k * 2 ^ (32 - k))

/-- SHA-256 round constants. -/
def sha256K : List Nat :=
  [1116352408, 1899447441, 3049323471, 3921009573, 961987163,
   1508970993, 2453635748, 2870763221, 3624381080, 310598401,
   607225278, 1426881987, 1925078388, 2162078206, 2614888103,
   3248222580, 3835390401, 4022224774, 264347078, 604807628,
   770255983, 1249150122, 1555081692, 1996064986, 2554220882,
   2821834349, 2952996808, 3210313671, 3336571891, 3584528711,
   113926993, 338241895, 666307205, 773529912, 1294757372,
   1396182291, 1695183700, 1986661051, 2177026350, 2456956037,
   2730485921, 2820302411, 3259730800, 3345764771, 3516065817,
   3600352804, 4094571909, 275423344, 430227734, 506948616,
   659060556, 883997877, 958139571, 1322822218, 1537002063,
   1747873779, 1955562222, 2024104815, 2227730452, 2361852424,
   2428436474, 2756734187, 3204031479, 3329325298]

/-- SHA-256 initial hash state. -/
def sha256H0 : List Nat :=
  [1779033703, 3144134277, 1013904242, 2773480762,
   1359893119, 2600822924, 528734635, 1541459225]

/-- Big-endian bytes of a 64-bit value. -/
def be64 (n : Nat) : List Nat :=
  [n / 2 ^ 56 % 256, n / 2 ^ 48 % 256, n / 2 ^ 40 % 256, n / 2 ^ 32 % 256,
   n / 2 ^ 24 % 256, n / 2 ^ 16 % 256, n / 2 ^ 8 % 256, n % 256]

/-- Big-endian bytes of a 32-bit value. -/
def be32 (n : Nat) : List Nat :=
  [n / 2 ^ 24 % 256, n / 2 ^ 16 % 256, n / 2 ^ 8 % 256, n % 256]

/-- SHA-256 message padding: `0x80`, zeros, and the bit length. -/
def sha256Pad (msg : List Nat) : List Nat :=
  msg ++ 0x80 :: List.replicate ((64 - (msg.length + 9) % 64) % 64) 0 ++ be64 (msg.length * 8)

/-- Big-endian packing of bytes into 32-bit words. -/
def bytesToWords : List Nat → List Nat
  | b1 :: b2 :: b3 :: b4 :: rest =>
    (b1 * 16777216 + b2 * 65536 + b3 * 256 + b4) :: bytesToWords rest
  | _ => []

/-- Big-endian unpacking of 32-bit words into bytes. -/
def wordsToBytes : List Nat → List Nat
  | [] => []
  | w :: rest => w / 16777216 % 256 :: w / 65536 % 256 :: w / 256 % 256 :: w % 256 :: wordsToBytes rest

/-- Fuel-driven chunking into groups of 16; any `fuel ≥ l.length` computes
the full chunking (used both for 16-word SHA-256 blocks and 16-byte AES
blocks). -/
def chunks16Loop : Nat → List Nat → List (List Nat)
  | 0, _ => []
  | _ + 1, [] => []
  | fuel + 1, x :: l => ((x :: l).take 16) :: chunks16Loop fuel ((x :: l).drop 16)

/-- Chunk a list into groups of 16 (the last group may be shorter). -/
def chunks16 (l : List Nat) : List (List Nat) :=
  chunks16Loop l.length l

/-- SHA-256 message-schedule extension of a 16-word block to 64 words. -/
def sha256Extend (w : List Nat) : List Nat :=
  (List.range 48).foldl
    (fun acc i =>
      let s0 := rotr32 7 (acc.getD (i + 1) 0) ^^^ rotr32 18 (acc.getD (i + 1) 0) ^^^
                acc.getD (i + 1) 0 / 2 ^ 3
      let s1 := rotr32 17 (acc.getD (i + 14) 0) ^^^ rotr32 19 (acc.getD (i + 14) 0) ^^^
                acc.getD (i + 14) 0 / 2 ^ 10
      acc ++ [w32 (acc.getD i 0 + s0 + acc.getD (i + 9) 0 + s1)])
    w

/-- One SHA-256 compression round on the 8-word state. -/
def sha256Round (st : List Nat) (kw : Nat × Nat) : List Nat :=
  let a := st.getD 0 0
  let b := st.getD 1 0
  let c := st.getD 2 0
  let d := st.getD 3 0
  let e := st.getD 4 0
  let f := st.getD 5 0
  let g := st.getD 6 0
  let h := st.getD 7 0
  let S1 := rotr32 6 e ^^^ rotr32 11 e ^^^ rotr32 25 e
  let ch := (e &&& f) ^^^ ((e ^^^ 0xFFFFFFFF) &&& g)
  let t1 := w32 (h + S1 + ch + kw.1 + kw.2)
  let S0 := rotr32 2 a ^^^ rotr32 13 a ^^^ rotr32 22 a
  let mj := (a &&& b) ^^^ (a &&& c) ^^^ (b &&& c)
  let t2 := w32 (S0 + mj)
  [w32 (t1 + t2), a, b, c, w32 (d + t1), e, f, g]

/-- SHA-256 of a byte list. -/
def sha256 (msg : List Nat) : List Nat :=
  wordsToBytes
    ((chunks16 (bytesToWords (sha256Pad msg))).foldl
      (fun st blk =>
        let out := (sha256K.zip (sha256Extend blk)).foldl sha256Round st
        List.zipWith (fun x y => w32 (x + y)) st out)
      sha256H0)

/-- HMAC-SHA-256 of a message under a key. -/
def hmacSha256 (key msg : List Nat) : List Nat :=
  let k0 := if 64 < key.length then sha256 key else key
  let k1 := k0 ++ List.replicate (64 - k0.length) 0
  sha256 (k1.map (fun b => b ^^^ 0x5c) ++ sha256 (k1.map (fun b => b ^^^ 0x36) ++ msg))

/-- Iterated xor chain of one PBKDF2 block. -/
def pbkdf2Iter (pw : List Nat) : Nat → List Nat → List Nat → List Nat
  | 0, _, acc => acc
  | n + 1, u, acc =>
    let u2 := hmacSha256 pw u
    pbkdf2Iter pw n u2 (List.zipWith (fun x y => x ^^^ y) acc u2)

/-- One output block `F(pw, salt, iter, i)` of PBKDF2. -/
def pbkdf2Block (pw salt : List Nat) (iter ix : Nat) : List Nat :=
  let u1 := hmacSha256 pw (salt ++ be32 ix)
  pbkdf2Iter pw (iter - 1) u1 u1

/-- PBKDF2 with the HMAC-SHA-256 pseudorandom function. -/
def pbkdf2HmacSha256 (pw salt : List Nat) (iter dkLen : Nat) : List Nat :=
  ((List.range ((dkLen + 31) / 32)).flatMap (fun i => pbkdf2Block pw salt iter (i + 1))).take dkLen

/-- `Th(n)`: the derived key of `userId` code points `n`, translating
`Ye.pbkdf2Sync(n, Buffer.from(Fl(Hr.r, Hr.m)), 100000, 32, "sha256")`
(both the password string and the salt string are UTF-8 encoded). -/
def Th (n : List Nat) : List Nat :=
  pbkdf2HmacSha256 (utf8Encode n) (utf8Encode (Fl Hr.r Hr.m)) 100000 32

/-! ### AES-256-CBC with PKCS#7 padding (mode layer of `createCipheriv`) -/

/-- Pointwise xor of two byte lists. -/
def xorBytes (a b : List Nat) : List Nat :=
  List.zipWith (fun x y => x ^^^ y) a b

/-- PKCS#7 padding to 16-byte blocks. -/
def pkcs7Pad (l : List Nat) : List Nat :=
  l ++ List.replicate (16 - l.length % 16) (16 - l.length % 16)

/-- PKCS#7 unpadding: checks that the last byte `k` is in `[1, 16]` and that
the last `k` bytes all equal `k`, then removes them. -/
def pkcs7Unpad (l : List Nat) : Option (List Nat) :=
  let k := l.reverse.headD 0
  if k = 0 ∨ 16 < k ∨ l.length < k then none
  else if l.drop (l.length - k) = List.replicate k k then some (l.take (l.length - k))
  else none

/-- CBC encryption over a list of plaintext blocks, with chaining value
`prev` (initially the IV) and block encryption `E`. -/
def cbcEncBlocks (E : List Nat → List Nat) (prev : List Nat) : List (List Nat) → List (List Nat)
  | [] => []
  | b :: bs =>
    let c := E (xorBytes prev b)
    c :: cbcEncBlocks E c bs

/-- CBC decryption over a list of ciphertext blocks, with chaining value
`prev` (initially the IV) and block decryption `D`. -/
def cbcDecBlocks (D : List Nat → List Nat) (prev : List Nat) : List (List Nat) → List (List Nat)
  | [] => []
  | c :: cs => xorBytes prev (D c) :: cbcDecBlocks D c cs

/-! ### JSON.stringify of the session payload -/

/-- Four lowercase hex digits of a value `< 0x10000`. -/
def hex4 (n : Nat) : List Nat :=
  [hexDigit (n / 4096 % 16), hexDigit (n / 256 % 16), hexDigit (n / 16 % 16), hexDigit (n % 16)]

/-- JSON string escaping of one code point, as `JSON.stringify` emits it:
quote and backslash get a two-character escape, the named control escapes
are used where they exist, other control characters and lone surrogates
become `\u` escapes, and everything else is emitted literally. -/
def escapeChar (c : Nat) : List Nat :=
  if c = 34 then [92, 34]
  else if c = 92 then [92, 92]
  else if c = 8 then [92, 98]
  else if c = 9 then [92, 116]
  else if c = 10 then [92, 110]
  else if c = 12 then [92, 102]
  else if c = 13 then [92, 114]
  else if c < 32 then 92 :: 117 :: hex4 c
  else if 0xD800 ≤ c ∧ c < 0xE000 then 92 :: 117 :: hex4 c
  else [c]

/-- JSON string escaping of a code-point list. -/
def escapeStr (s : List Nat) : List Nat :=
  s.flatMap escapeChar

/-- A JSON string literal: quote, escaped body, quote. -/
def quoteStr (s : List Nat) : List Nat :=
  34 :: escapeStr s ++ [34]

/-- `JSON.stringify({userId: u, clientUUID: c, apiKey: a})`: compact JSON,
keys in insertion order, no whitespace. -/
def jsonStringifyPayload (u c a : List Nat) : List Nat :=
  strCodes "\x7b\"userId\":" ++ quoteStr u ++
  strCodes ",\"clientUUID\":" ++ quoteStr c ++
  strCodes ",\"apiKey\":" ++ quoteStr a ++ [125]

/-! ### The encipherer `kh` and the identifier assembler -/

/-- The session payload supplied by the caller (JS strings as code-point
lists). -/
structure SessionPayload where
  userId : List Nat
  clientUUID : List Nat

/-- The plaintext `kh` serializes: the payload spread into an object
together with `apiKey: Fl(jr.r, jr.m)`, passed through `JSON.stringify`. -/
def khPlainCodes (n : SessionPayload) : List Nat :=
  jsonStringifyPayload n.userId n.clientUUID (Fl jr.r jr.m)

/-- `kh(n)`: derive the key from `n.userId`, CBC-encrypt the UTF-8 bytes of
the JSON plaintext under the random IV `t` (PKCS#7 padding, block cipher
`E key`), and return `t.toString("hex") + ":" + o.toString("hex")`.
`E` abstracts the AES-256 block encryption of `createCipheriv`, and the
16 random bytes `t` of `Ye.randomBytes(Sh)` are an explicit argument. -/
def kh (E : List Nat → List Nat → List Nat) (t : List Nat) (n : SessionPayload) : List Nat :=
  let e := Th n.userId
  let o := (cbcEncBlocks (E e) t (chunks16 (pkcs7Pad (utf8Encode (khPlainCodes n))))).flatten
  hexEncode t ++ 58 :: hexEncode o

/-- `H7t(e)`: hex string of the random bytes `e` (each mapped through
`toString(16).padStart(2, "0")`); the 12 random bytes of
`crypto.getRandomValues` are an explicit argument. -/
def H7t (e : List Nat) : List Nat :=
  (e.map hexByte).flatten

/-- `get_identifier(userId, clientUUID)`: encipher the payload and prefix
the random nonce, `` `${H7t()}:${t}` ``. -/
def get_identifier (E : List Nat → List Nat → List Nat) (nonce iv : List Nat)
    (userId clientUUID : List Nat) : List Nat :=
  H7t nonce ++ 58 :: kh E iv { userId := userId, clientUUID := clientUUID }

/-! ### Token splitting -/

/-- Split a code-point list at the first colon, `none` when there is no
colon. -/
def splitFirstColon : List Nat → Option (List Nat × List Nat)
  | [] => none
  | c :: rest =>
    if c = 58 then some ([], rest)
    else (splitFirstColon rest).map (fun p => (c :: p.1, p.2))

/-- Split a code-point list into its colon-separated fields. -/
def splitColons : List Nat → List (List Nat)
  | [] => [[]]
  | c :: rest =>
    if c = 58 then [] :: splitColons rest
    else
      match splitColons rest with
      | [] => [[c]]
      | f :: fs => (c :: f) :: fs

/-! ### The collaborator decrypter (not in src/, modelled from the spec) -/

/-- Unescape one simple (single-character) JSON escape. -/
def unescapeSimple (e : Nat) : Option Nat :=
  if e = 34 then some 34
  else if e = 92 then some 92
  else if e = 47 then some 47
  else if e = 98 then some 8
  else if e = 116 then some 9
  else if e = 110 then some 10
  else if e = 102 then some 12
  else if e = 114 then some 13
  else none

/-- Modelled from the spec: parse a JSON string body after the opening
quote, undoing the escapes of `escapeChar`, and return the decoded code
points together with what follows the closing quote.  The collaborator's
JSON reader is not in `src/`; this follows §4.3/§6 of the spec ("recovers
JSON text `\x7buserId, clientUUID, apiKey\x7d`"). -/
def parseStrBody (l : List Nat) : Option (List Nat × List Nat) :=
  match l with
  | [] => none
  | c :: rest =>
    if c = 34 then some ([], rest)
    else if c = 92 then
      if rest.getD 0 999 = 117 then
        (hexVal (rest.getD 1 999)).bind fun a =>
        (hexVal (rest.getD 2 999)).bind fun b =>
        (hexVal (rest.getD 3 999)).bind fun d1 =>
        (hexVal (rest.getD 4 999)).bind fun d2 =>
        (parseStrBody (rest.drop 5)).map fun p =>
          ((a * 4096 + b * 256 + d1 * 16 + d2) :: p.1, p.2)
      else
        (unescapeSimple (rest.getD 0 999)).bind fun v =>
        (parseStrBody (rest.drop 1)).map fun p => (v :: p.1, p.2)
    else (parseStrBody rest).map fun p => (c :: p.1, p.2)
termination_by l.length
decreasing_by all_goals simp only [List.length_drop, List.length_cons]; omega

/-- Consume an expected literal piece of text, returning the remainder. -/
def expectLit (pat l : List Nat) : Option (List Nat) :=
  if l.take pat.length = pat then some (l.drop pat.length) else none

/-- Modelled from the spec: parse the serialized payload object
`\x7b"userId":…,"clientUUID":…,"apiKey":…\x7d` back into its three string
fields (the collaborator's JSON reader, not in `src/`). -/
def parsePayload (l : List Nat) : Option (List Nat × List Nat × List Nat) :=
  (expectLit (strCodes "\x7b\"userId\":\"") l).bind fun l1 =>
  (parseStrBody l1).bind fun p1 =>
  (expectLit (strCodes ",\"clientUUID\":\"") p1.2).bind fun l2 =>
  (parseStrBody l2).bind fun p2 =>
  (expectLit (strCodes ",\"apiKey\":\"") p2.2).bind fun l3 =>
  (parseStrBody l3).bind fun p3 =>
  if p3.2 = [125] then some (p1.1, p2.1, p3.1) else none

/-- Modelled from the spec (§4.3, decryption is "external, symmetric" and
only construction is shown in source): split the token on the first colon,
hex-decode IV and ciphertext, derive the key from `userId`, CBC-decrypt
with block decryption `D key`, strip PKCS#7 padding, and read the plaintext
bytes as UTF-8 text.  A truncated token, a non-block-aligned ciphertext or
bad padding yields `none` (the spec's `DecryptionError`). -/
def decryptToken (D : List Nat → List Nat → List Nat) (token : List Nat)
    (userId : List Nat) : Option (List Nat) :=
  (splitFirstColon token).bind fun f =>
  (hexDecode f.1).bind fun iv =>
  (hexDecode f.2).bind fun ct =>
  if ct.length % 16 = 0 ∧ ct ≠ [] then
    (pkcs7Unpad ((cbcDecBlocks (D (Th userId)) iv (chunks16 ct)).flatten)).bind fun pt =>
    some (utf8DecodeLenient pt)
  else none

/-- Modelled from the spec: full collaborator-side decryption, recovering
the three JSON fields `(userId, clientUUID, apiKey)` from a token. -/
def decryptPayload (D : List Nat → List Nat → List Nat) (token : List Nat)
    (userId : List Nat) : Option (List Nat × List Nat × List Nat) :=
  (decryptToken D token userId).bind parsePayload

/-! ### Spec-side reference definitions for the refinement claims -/

/-- Modelled from the spec (§4.2): PBKDF2/HMAC-SHA-256, password =
UTF-8 bytes of `userId`, salt = the Descrambler output for the first
constant table, 100000 iterations, 32 output bytes. -/
def derive_key_spec (userId : List Nat) : List Nat :=
  pbkdf2HmacSha256 (utf8Encode userId) (utf8Encode (Fl Hr.r Hr.m)) 100000 32

/-- Modelled from the spec (§8, descrambler round-trip): the forward
scrambling procedure.  Starting from the pre-scramble secret, the
unscrambled text `t` is the base64 encoding of the reversed UTF-8 bytes of
the secret, and the scrambled values are `r[s] = t[m[s]]` so that
descrambling's `t[m[s]] = r[s]` reads them back. -/
def scrambleSpec (secret m : List Nat) : List Nat :=
  (List.range m.length).map
    (fun s => (base64Encode (utf8Encode secret).reverse).getD (m.getD s 0) 0)

/-! ### Lemmas: hex -/

set_option maxRecDepth 10000

lemma hexVal_hexDigit : ∀ n < 16, hexVal (hexDigit n) = some n := by decide

lemma hexDigit_range : ∀ n < 16, 48 ≤ hexDigit n ∧ hexDigit n ≤ 57 ∨
    97 ≤ hexDigit n ∧ hexDigit n ≤ 102 := by decide

/-- Hex chunk of one byte, prepended to further hex text. -/
lemma hexEncode_cons (b : Nat) (bs : List Nat) :
    hexEncode (b :: bs) = hexDigit (b / 16) :: hexDigit (b % 16) :: hexEncode bs := by
  simp [hexEncode, hexByte]

lemma hexDecode_hexEncode (bs : List Nat) (h : ∀ b ∈ bs, b < 256) :
    hexDecode (hexEncode bs) = some bs := by
  induction bs with
  | nil => rfl
  | cons b bs ih =>
    have hb : b < 256 := h b (by simp)
    rw [hexEncode_cons]
    unfold hexDecode
    rw [hexVal_hexDigit (b / 16) (by omega), hexVal_hexDigit (b % 16) (by omega),
      ih (fun x hx => h x (by simp [hx]))]
    simp only [Option.some.injEq, List.cons.injEq, and_true]
    omega

lemma hexEncode_mem_range (bs : List Nat) (h : ∀ b ∈ bs, b < 256) :
    ∀ c ∈ hexEncode bs, 48 ≤ c ∧ c ≤ 57 ∨ 97 ≤ c ∧ c ≤ 102 := by
  induction bs with
  | nil => simp [hexEncode]
  | cons b bs ih =>
    have hb : b < 256 := h b (by simp)
    rw [hexEncode_cons]
    intro c hc
    simp only [List.mem_cons] at hc
    rcases hc with rfl | rfl | hc
    · exact hexDigit_range (b / 16) (by omega)
    · exact hexDigit_range (b % 16) (by omega)
    · exact ih (fun x hx => h x (by simp [hx])) c hc

lemma hexEncode_ne_colon (bs : List Nat) (h : ∀ b ∈ bs, b < 256) :
    ∀ c ∈ hexEncode bs, c ≠ 58 := by
  intro c hc
  rcases hexEncode_mem_range bs h c hc with h1 | h1 <;> omega

lemma hexEncode_length (bs : List Nat) : (hexEncode bs).length = 2 * bs.length := by
  induction bs with
  | nil => rfl
  | cons b bs ih => rw [hexEncode_cons]; simp [ih]; omega

lemma H7t_eq_hexEncode (bs : List Nat) : H7t bs = hexEncode bs := by
  simp [H7t, hexEncode, List.flatMap_def]

/-! ### Lemmas: colon splitting -/

lemma splitFirstColon_append (a b : List Nat) (h : ∀ c ∈ a, c ≠ 58) :
    splitFirstColon (a ++ 58 :: b) = some (a, b) := by
  induction a with
  | nil => simp [splitFirstColon]
  | cons c a ih =>
    have hc : c ≠ 58 := h c (by simp)
    simp only [List.cons_append, splitFirstColon, if_neg hc, List.append_eq]
    rw [ih (fun x hx => h x (by simp [hx]))]
    rfl

lemma splitColons_append (a b : List Nat) (h : ∀ c ∈ a, c ≠ 58) :
    splitColons (a ++ 58 :: b) = a :: splitColons b := by
  induction a with
  | nil => simp [splitColons]
  | cons c a ih =>
    have hc : c ≠ 58 := h c (by simp)
    simp only [List.cons_append, splitColons, if_neg hc, List.append_eq]
    rw [ih (fun x hx => h x (by simp [hx]))]

lemma splitColons_nocolon (a : List Nat) (h : ∀ c ∈ a, c ≠ 58) :
    splitColons a = [a] := by
  induction a with
  | nil => rfl
  | cons c a ih =>
    have hc : c ≠ 58 := h c (by simp)
    simp only [splitColons, if_neg hc]
    rw [ih (fun x hx => h x (by simp [hx]))]

/-! ### Lemmas: base64 -/

lemma b64Val_b64Char : ∀ n < 64, b64Val (b64Char n) = some n := by decide

lemma b64Val_pad : b64Val 61 = none := by decide

lemma base64DecodeLenient_base64Encode (bs : List Nat) (h : ∀ b ∈ bs, b < 256) :
    base64DecodeLenient (base64Encode bs) = bs := by
  induction bs using base64Encode.induct with
  | case1 => rfl
  | case2 a =>
    have ha : a < 256 := h a (by simp)
    simp only [base64Encode, base64DecodeLenient, List.filterMap_cons,
      b64Val_b64Char (a / 4) (by omega), b64Val_b64Char (a % 4 * 16) (by omega),
      b64Val_pad, List.filterMap_nil]
    unfold b64Regroup
    simp only [List.cons.injEq, and_true]
    omega
  | case3 a b =>
    have ha : a < 256 := h a (by simp)
    have hb : b < 256 := h b (by simp)
    simp only [base64Encode, base64DecodeLenient, List.filterMap_cons,
      b64Val_b64Char (a / 4) (by omega), b64Val_b64Char (a % 4 * 16 + b / 16) (by omega),
      b64Val_b64Char (b % 16 * 4) (by omega), b64Val_pad, List.filterMap_nil]
    unfold b64Regroup
    simp only [List.cons.injEq, and_true]
    constructor <;> omega
  | case4 a b c rest ih =>
    have ha : a < 256 := h a (by simp)
    have hb : b < 256 := h b (by simp)
    have hc : c < 256 := h c (by simp)
    have ih2 := ih (fun x hx => h x (by simp [hx]))
    simp only [base64Encode, base64DecodeLenient, List.filterMap_cons,
      b64Val_b64Char (a / 4) (by omega), b64Val_b64Char (a % 4 * 16 + b / 16) (by omega),
      b64Val_b64Char (b % 16 * 4 + c / 64) (by omega), b64Val_b64Char (c % 64) (by omega)] at ih2 ⊢
    unfold b64Regroup
    simp only [List.cons.injEq]
    refine ⟨by omega, by omega, by omega, ih2⟩

/-! ### Lemmas: UTF-8 -/

lemma utf8DecodeLoop_fuel : ∀ f1 f2 l, l.length ≤ f1 → l.length ≤ f2 →
    utf8DecodeLoop f1 l = utf8DecodeLoop f2 l := by
  intro f1
  induction f1 with
  | zero =>
    intro f2 l h1 _
    have : l = [] := List.length_eq_zero.mp (by omega)
    subst this
    cases f2 <;> rfl
  | succ f1 ih =>
    intro f2 l h1 h2
    cases l with
    | nil => cases f2 <;> rfl
    | cons b rest =>
      cases f2 with
      | zero => simp at h2
      | succ f2 =>
        simp only [utf8DecodeLoop]
        rw [ih f2 (rest.drop (utf8Step b rest).2)
          (by simp [List.length_drop] at h1 ⊢; omega)
          (by simp [List.length_drop] at h2 ⊢; omega)]

lemma utf8DecodeLenient_cons_ascii (b : Nat) (rest : List Nat) (h : b < 0x80) :
    utf8DecodeLenient (b :: rest) = b :: utf8DecodeLenient rest := by
  simp only [utf8DecodeLenient, List.length_cons, utf8DecodeLoop, utf8Step, if_pos h,
    List.drop_zero]

lemma utf8DecodeLenient_ascii (bs : List Nat) (h : ∀ b ∈ bs, b < 0x80) :
    utf8DecodeLenient bs = bs := by
  induction bs with
  | nil => rfl
  | cons b rest ih =>
    rw [utf8DecodeLenient_cons_ascii b rest (h b (by simp)),
      ih (fun x hx => h x (by simp [hx]))]

lemma utf8DecodeLenient_encChar (n : Nat) (rest : List Nat) (h : scalarValue n) :
    utf8DecodeLenient (utf8EncodeChar n ++ rest) = n :: utf8DecodeLenient rest := by
  by_cases h1 : n < 0x80
  · rw [show utf8EncodeChar n = [n] from by simp [utf8EncodeChar, h1]]
    exact utf8DecodeLenient_cons_ascii n rest h1
  · by_cases h2 : n < 0x800
    · rw [show utf8EncodeChar n = [0xC0 + n / 64, 0x80 + n % 64] from by
        simp [utf8EncodeChar, h1, h2]]
      have hstep : utf8Step (0xC0 + n / 64) ((0x80 + n % 64) :: rest) = (n, 1) := by
        unfold utf8Step
        simp only [List.getD_cons_zero, List.getD_cons_succ]
        rw [if_neg (by omega), if_pos (by constructor <;> omega),
          if_pos (by simp only [isCont, decide_eq_true_eq]; omega)]
        simp only [Prod.mk.injEq, and_true]
        omega
      rw [show [0xC0 + n / 64, 0x80 + n % 64] ++ rest =
        (0xC0 + n / 64) :: (0x80 + n % 64) :: rest from rfl]
      unfold utf8DecodeLenient
      simp only [List.length_cons, utf8DecodeLoop, hstep, List.drop_succ_cons, List.drop_zero]
      rw [utf8DecodeLoop_fuel (rest.length + 1) rest.length rest (by omega) (by omega)]
    · by_cases h3 : n < 0x10000
      · have hsur : n < 0xD800 ∨ 0xE000 ≤ n := by
          rcases h with h | h
          · exact Or.inl h
          · exact Or.inr h.1
        rw [show utf8EncodeChar n = [0xE0 + n / 4096, 0x80 + n / 64 % 64, 0x80 + n % 64] from by
          simp [utf8EncodeChar, h1, h2, h3]]
        have hdd : n / 4096 = n / 64 / 64 := by rw [Nat.div_div_eq_div_mul]
        have hstep : utf8Step (0xE0 + n / 4096)
            ((0x80 + n / 64 % 64) :: (0x80 + n % 64) :: rest) = (n, 2) := by
          unfold utf8Step
          simp only [List.getD_cons_zero, List.getD_cons_succ]
          rw [if_neg (by omega), if_neg (by omega), if_pos (by constructor <;> omega)]
          rw [if_pos (by
            split_ifs with he0 hed <;>
              simp only [isCont, Bool.and_eq_true, decide_eq_true_eq] <;> omega)]
          simp only [Prod.mk.injEq, and_true]
          omega
        rw [show [0xE0 + n / 4096, 0x80 + n / 64 % 64, 0x80 + n % 64] ++ rest =
          (0xE0 + n / 4096) :: (0x80 + n / 64 % 64) :: (0x80 + n % 64) :: rest from rfl]
        unfold utf8DecodeLenient
        simp only [List.length_cons, utf8DecodeLoop, hstep, List.drop_succ_cons, List.drop_zero]
        rw [utf8DecodeLoop_fuel (rest.length + 2) rest.length rest (by omega) (by omega)]
      · have h4 : n < 0x110000 := by
          rcases h with h | h
          · omega
          · exact h.2
        rw [show utf8EncodeChar n =
            [0xF0 + n / 262144, 0x80 + n / 4096 % 64, 0x80 + n / 64 % 64, 0x80 + n % 64] from by
          simp [utf8EncodeChar, h1, h2, h3]]
        have hdd : n / 4096 = n / 64 / 64 := by rw [Nat.div_div_eq_div_mul]
        have hdd2 : n / 262144 = n / 4096 / 64 := by
          rw [Nat.div_div_eq_div_mul]
        have hstep : utf8Step (0xF0 + n / 262144)
            ((0x80 + n / 4096 % 64) :: (0x80 + n / 64 % 64) :: (0x80 + n % 64) :: rest) =
            (n, 3) := by
          unfold utf8Step
          simp only [List.getD_cons_zero, List.getD_cons_succ]
          rw [if_neg (by omega), if_neg (by omega), if_neg (by omega),
            if_pos (by constructor <;> omega)]
          rw [if_pos (by
            split_ifs with hf0 hf4 <;>
              simp only [isCont, Bool.and_eq_true, decide_eq_true_eq] <;> omega)]
          simp only [Prod.mk.injEq, and_true]
          omega
        rw [show [0xF0 + n / 262144, 0x80 + n / 4096 % 64, 0x80 + n / 64 % 64, 0x80 + n % 64] ++
            rest = (0xF0 + n / 262144) :: (0x80 + n / 4096 % 64) :: (0x80 + n / 64 % 64) ::
            (0x80 + n % 64) :: rest from rfl]
        unfold utf8DecodeLenient
        simp only [List.length_cons, utf8DecodeLoop, hstep, List.drop_succ_cons, List.drop_zero]
        rw [utf8DecodeLoop_fuel (rest.length + 3) rest.length rest (by omega) (by omega)]

lemma utf8DecodeLenient_utf8Encode (s : List Nat) (h : ∀ n ∈ s, scalarValue n) :
    utf8DecodeLenient (utf8Encode s) = s := by
  induction s with
  | nil => rfl
  | cons n s ih =>
    rw [show utf8Encode (n :: s) = utf8EncodeChar n ++ utf8Encode s from by
      simp [utf8Encode]]
    rw [utf8DecodeLenient_encChar n (utf8Encode s) (h n (by simp)),
      ih (fun x hx => h x (by simp [hx]))]

lemma utf8EncodeChar_bytes (n : Nat) (h : jsChar n) :
    ∀ b ∈ utf8EncodeChar n, b < 256 := by
  unfold jsChar at h
  unfold utf8EncodeChar
  split_ifs with h1 h2 h3 <;> intro b hb <;> simp only [List.mem_cons,
    List.mem_singleton, List.not_mem_nil, or_false] at hb
  · omega
  · rcases hb with rfl | rfl <;> omega
  · rcases hb with rfl | rfl | rfl <;> omega
  · rcases hb with rfl | rfl | rfl | rfl <;> omega

lemma utf8Encode_bytes (s : List Nat) (h : ∀ n ∈ s, jsChar n) :
    ∀ b ∈ utf8Encode s, b < 256 := by
  intro b hb
  simp only [utf8Encode, List.mem_flatMap] at hb
  obtain ⟨n, hn, hbn⟩ := hb
  exact utf8EncodeChar_bytes n (h n hn) b hbn

/-! ### Lemmas: scatter (`Ah`) -/

lemma scatterWrites_length (ps : List (Nat × Nat)) (t : List Nat) :
    (scatterWrites ps t).length = t.length := by
  induction ps generalizing t with
  | nil => rfl
  | cons p ps ih => simp [scatterWrites, ih, List.length_set]

lemma scatterWrites_getElem?_not_mem (ps : List (Nat × Nat)) (t : List Nat) (j : Nat)
    (h : ∀ p ∈ ps, p.1 ≠ j) :
    (scatterWrites ps t)[j]? = t[j]? := by
  induction ps generalizing t with
  | nil => rfl
  | cons p ps ih =>
    simp only [scatterWrites]
    rw [ih (t.set p.1 p.2) (fun q hq => h q (by simp [hq])),
      List.getElem?_set_ne (h p (by simp))]

lemma scatterWrites_getElem?_hit (ps1 ps2 : List (Nat × Nat)) (t : List Nat) (j v : Nat)
    (hj : j < t.length) (h2 : ∀ p ∈ ps2, p.1 ≠ j) :
    (scatterWrites (ps1 ++ (j, v) :: ps2) t)[j]? = some v := by
  induction ps1 generalizing t with
  | nil =>
    simp only [List.nil_append, scatterWrites]
    rw [scatterWrites_getElem?_not_mem ps2 (t.set j v) j h2,
      List.getElem?_set_self (by simpa using hj)]
  | cons p ps1 ih =>
    simp only [List.cons_append, scatterWrites]
    exact ih (t.set p.1 p.2) (by simpa using hj)

lemma Ah_length (r m : List Nat) : (Ah r m).length = r.length := by
  simp [Ah, scatterWrites_length]

lemma Ah_getElem? (r m : List Nat) (s : Nat) (hs : s < m.length) (hlen : m.length = r.length)
    (hb : ∀ i, (hi : i < m.length) → m[i] < r.length)
    (hinj : ∀ i j, (hi : i < m.length) → (hj : j < m.length) → m[i] = m[j] → i = j) :
    (Ah r m)[m[s]]? = some r[s] := by
  have hzl : (m.zip r).length = m.length := by simp [List.length_zip]; omega
  have hsz : s < (m.zip r).length := by omega
  have hdecomp : m.zip r = (m.zip r).take s ++ (m[s], r[s]) :: (m.zip r).drop (s + 1) := by
    conv =>
      lhs
      rw [← List.take_append_drop s (m.zip r)]
    rw [List.drop_eq_getElem_cons hsz, List.getElem_zip]
  unfold Ah
  rw [hdecomp]
  apply scatterWrites_getElem?_hit
  · simpa using hb s hs
  · intro p hp
    rw [List.mem_iff_getElem] at hp
    obtain ⟨k, hk, hpk⟩ := hp
    have hk2 : s + 1 + k < (m.zip r).length := by
      simp only [List.length_drop] at hk
      omega
    rw [List.getElem_drop, List.getElem_zip] at hpk
    intro hcontra
    have heq : m[s + 1 + k] = m[s] := by
      rw [← hpk] at hcontra
      simpa using hcontra
    have := hinj (s + 1 + k) s (by omega) hs heq
    omega

lemma Ah_scatter_eq (t m : List Nat) (hlen : m.length = t.length)
    (hb : ∀ i, (hi : i < m.length) → m[i] < t.length)
    (hinj : ∀ i j, (hi : i < m.length) → (hj : j < m.length) → m[i] = m[j] → i = j)
    (hsurj : ∀ j, j < t.length → ∃ s, ∃ hs : s < m.length, m[s] = j) :
    Ah ((List.range m.length).map (fun s => t.getD (m.getD s 0) 0)) m = t := by
  set r : List Nat := (List.range m.length).map (fun s => t.getD (m.getD s 0) 0) with hr
  have hrlen : r.length = m.length := by simp [hr]
  apply List.ext_getElem?
  intro j
  by_cases hj : j < t.length
  · obtain ⟨s, hs, hms⟩ := hsurj j hj
    have h1 : (Ah r m)[m[s]]? = some r[s] := by
      apply Ah_getElem? r m s hs (by omega)
      · intro i hi
        have := hb i hi
        omega
      · exact hinj
    rw [hms] at h1
    rw [h1]
    have h2 : r[s] = t.getD (m.getD s 0) 0 := by
      simp [hr]
    have hm : m.getD s 0 = j := by
      rw [List.getD_eq_getElem?_getD, List.getElem?_eq_getElem hs]
      simpa using hms
    rw [h2, hm, List.getD_eq_getElem?_getD, List.getElem?_eq_getElem hj]
    rfl
  · rw [List.getElem?_eq_none, List.getElem?_eq_none]
    · omega
    · rw [Ah_length]; omega

/-! ### Lemmas: base64 text is ASCII -/

lemma b64Char_lt128 (n : Nat) : b64Char n < 128 := by
  unfold b64Char
  split_ifs <;> omega

lemma base64Encode_lt128 (bs : List Nat) : ∀ c ∈ base64Encode bs, c < 128 := by
  induction bs using base64Encode.induct with
  | case1 => simp [base64Encode]
  | case2 a =>
    intro c hc
    simp only [base64Encode, List.mem_cons, List.not_mem_nil, or_false] at hc
    rcases hc with rfl | rfl | rfl | rfl <;> first | exact b64Char_lt128 _ | omega
  | case3 a b =>
    intro c hc
    simp only [base64Encode, List.mem_cons, List.not_mem_nil, or_false] at hc
    rcases hc with rfl | rfl | rfl | rfl <;> first | exact b64Char_lt128 _ | omega
  | case4 a b c rest ih =>
    intro x hx
    simp only [base64Encode, List.mem_cons] at hx
    rcases hx with rfl | rfl | rfl | rfl | hx
    · exact b64Char_lt128 _
    · exact b64Char_lt128 _
    · exact b64Char_lt128 _
    · exact b64Char_lt128 _
    · exact ih x hx

/-! ### Lemmas: PKCS#7 -/

lemma pkcs7Pad_length (l : List Nat) :
    (pkcs7Pad l).length = l.length + (16 - l.length % 16) := by
  simp [pkcs7Pad]

lemma pkcs7Pad_length_mod (l : List Nat) : (pkcs7Pad l).length % 16 = 0 := by
  rw [pkcs7Pad_length]
  omega

lemma pkcs7Pad_ne_nil (l : List Nat) : pkcs7Pad l ≠ [] := by
  intro h
  have := congrArg List.length h
  rw [pkcs7Pad_length] at this
  simp at this
  omega

lemma pkcs7Pad_bytes (l : List Nat) (h : ∀ b ∈ l, b < 256) :
    ∀ b ∈ pkcs7Pad l, b < 256 := by
  intro b hb
  simp only [pkcs7Pad, List.mem_append, List.mem_replicate] at hb
  rcases hb with hb | hb
  · exact h b hb
  · omega

lemma pkcs7Unpad_pkcs7Pad (l : List Nat) : pkcs7Unpad (pkcs7Pad l) = some l := by
  set p : Nat := 16 - l.length % 16 with hp
  have hp1 : 1 ≤ p ∧ p ≤ 16 := by omega
  have hlen : (pkcs7Pad l).length = l.length + p := by rw [pkcs7Pad_length]
  have hrev : (pkcs7Pad l).reverse = p :: (List.replicate (p - 1) p ++ l.reverse) := by
    simp only [pkcs7Pad, ← hp, List.reverse_append, List.reverse_replicate]
    rw [show List.replicate p p = p :: List.replicate (p - 1) p from by
      rw [← List.replicate_succ]
      congr 1
      omega]
    simp
  unfold pkcs7Unpad
  rw [show (pkcs7Pad l).reverse.headD 0 = p from by rw [hrev]; rfl]
  rw [if_neg (by omega)]
  rw [if_pos]
  · congr 1
    rw [show (pkcs7Pad l).length - p = l.length from by omega]
    simp only [pkcs7Pad, ← hp]
    exact List.take_left ..
  · rw [show (pkcs7Pad l).length - p = l.length from by omega]
    simp only [pkcs7Pad, ← hp]
    exact List.drop_left ..

/-! ### Lemmas: xor and CBC -/

/-- Encryption-side contract of a keyed AES block function: a 16-byte
block maps to a 16-byte block. -/
def BlockEncOk (E : List Nat → List Nat) : Prop :=
  ∀ b : List Nat, b.length = 16 → (∀ x ∈ b, x < 256) →
    (E b).length = 16 ∧ (∀ x ∈ E b, x < 256)

/-- Contract of a keyed AES block permutation pair as exposed by
`createCipheriv`/`createDecipheriv`: on a 16-byte block, encryption
produces a 16-byte block and decryption inverts it. -/
def BlockCipherOk (E D : List Nat → List Nat) : Prop :=
  ∀ b : List Nat, b.length = 16 → (∀ x ∈ b, x < 256) →
    (E b).length = 16 ∧ (∀ x ∈ E b, x < 256) ∧ D (E b) = b

lemma BlockCipherOk.toEnc (E D : List Nat → List Nat) (h : BlockCipherOk E D) :
    BlockEncOk E :=
  fun b h1 h2 => ⟨(h b h1 h2).1, (h b h1 h2).2.1⟩

lemma xorBytes_length (a b : List Nat) : (xorBytes a b).length = min a.length b.length := by
  simp [xorBytes]

lemma xorBytes_lt (a b : List Nat) (ha : ∀ x ∈ a, x < 256) (hb : ∀ x ∈ b, x < 256) :
    ∀ x ∈ xorBytes a b, x < 256 := by
  intro x hx
  simp only [xorBytes, List.mem_iff_getElem, List.getElem_zipWith, List.length_zipWith] at hx
  obtain ⟨n, hn, rfl⟩ := hx
  have h1 : a[n] < 256 := ha _ (List.getElem_mem _)
  have h2 : b[n] < 256 := hb _ (List.getElem_mem _)
  calc a[n] ^^^ b[n] < 2 ^ 8 := Nat.xor_lt_two_pow h1 h2
    _ = 256 := rfl

lemma xorBytes_cancel (a b : List Nat) (h : a.length = b.length) :
    xorBytes a (xorBytes a b) = b := by
  induction a generalizing b with
  | nil =>
    have : b = [] := by
      cases b
      · rfl
      · simp at h
    simp [this, xorBytes]
  | cons x a ih =>
    cases b with
    | nil => simp at h
    | cons y b =>
      simp only [xorBytes, List.zipWith_cons_cons] at ih ⊢
      rw [Nat.xor_cancel_left]
      congr 1
      exact ih b (by simpa using h)

lemma cbcEncBlocks_ok (E : List Nat → List Nat) (hE : BlockEncOk E)
    (bs : List (List Nat)) (prev : List Nat)
    (hprev : prev.length = 16 ∧ ∀ x ∈ prev, x < 256)
    (hbs : ∀ b ∈ bs, b.length = 16 ∧ ∀ x ∈ b, x < 256) :
    ∀ c ∈ cbcEncBlocks E prev bs, c.length = 16 ∧ ∀ x ∈ c, x < 256 := by
  induction bs generalizing prev with
  | nil => simp [cbcEncBlocks]
  | cons b bs ih =>
    have hb := hbs b (by simp)
    have hxlen : (xorBytes prev b).length = 16 := by
      rw [xorBytes_length, hprev.1, hb.1]
      omega
    have hxbytes : ∀ x ∈ xorBytes prev b, x < 256 := xorBytes_lt _ _ hprev.2 hb.2
    have hout := hE (xorBytes prev b) hxlen hxbytes
    intro c hc
    simp only [cbcEncBlocks, List.mem_cons] at hc
    rcases hc with rfl | hc
    · exact hout
    · exact ih (E (xorBytes prev b)) hout
        (fun x hx => hbs x (by simp [hx])) c hc

lemma cbcDecBlocks_cbcEncBlocks (E D : List Nat → List Nat) (hED : BlockCipherOk E D)
    (bs : List (List Nat)) (prev : List Nat)
    (hprev : prev.length = 16 ∧ ∀ x ∈ prev, x < 256)
    (hbs : ∀ b ∈ bs, b.length = 16 ∧ ∀ x ∈ b, x < 256) :
    cbcDecBlocks D prev (cbcEncBlocks E prev bs) = bs := by
  induction bs generalizing prev with
  | nil => simp [cbcEncBlocks, cbcDecBlocks]
  | cons b bs ih =>
    have hb := hbs b (by simp)
    have hxlen : (xorBytes prev b).length = 16 := by
      rw [xorBytes_length, hprev.1, hb.1]
      omega
    have hxbytes : ∀ x ∈ xorBytes prev b, x < 256 := xorBytes_lt _ _ hprev.2 hb.2
    have hout := hED (xorBytes prev b) hxlen hxbytes
    simp only [cbcEncBlocks, cbcDecBlocks, List.cons.injEq]
    constructor
    · rw [hout.2.2]
      exact xorBytes_cancel prev b (by omega)
    · exact ih (E (xorBytes prev b)) ⟨hout.1, hout.2.1⟩
        (fun x hx => hbs x (by simp [hx]))

lemma cbcEncBlocks_length (E : List Nat → List Nat) (prev : List Nat) (bs : List (List Nat)) :
    (cbcEncBlocks E prev bs).length = bs.length := by
  induction bs generalizing prev with
  | nil => rfl
  | cons b bs ih => simp [cbcEncBlocks, ih]

/-! ### Lemmas: chunking -/

lemma chunks16Loop_fuel : ∀ f1 f2 l, l.length ≤ f1 → l.length ≤ f2 →
    chunks16Loop f1 l = chunks16Loop f2 l := by
  intro f1
  induction f1 with
  | zero =>
    intro f2 l h1 _
    have : l = [] := List.length_eq_zero.mp (by omega)
    subst this
    cases f2 <;> rfl
  | succ f1 ih =>
    intro f2 l h1 h2
    cases l with
    | nil => cases f2 <;> rfl
    | cons x l =>
      cases f2 with
      | zero => simp at h2
      | succ f2 =>
        simp only [List.length_cons] at h1 h2
        simp only [chunks16Loop]
        rw [ih f2 ((x :: l).drop 16) (by simp only [List.length_drop, List.length_cons]; omega)
          (by simp only [List.length_drop, List.length_cons]; omega)]

lemma chunks16_append (blk rest : List Nat) (h : blk.length = 16) :
    chunks16 (blk ++ rest) = blk :: chunks16 rest := by
  have hne : blk ++ rest ≠ [] := by
    intro hx
    have hzero : (blk ++ rest).length = 0 := by rw [hx]; rfl
    rw [List.length_append] at hzero
    omega
  obtain ⟨x, l, hxl⟩ : ∃ x l, blk ++ rest = x :: l := by
    cases hbl : blk ++ rest with
    | nil => exact absurd hbl hne
    | cons x l => exact ⟨x, l, rfl⟩
  unfold chunks16
  rw [hxl]
  have hlen : (x :: l).length = 16 + rest.length := by
    rw [← hxl]
    simp [h]
  rw [hlen, show 16 + rest.length = 15 + rest.length + 1 from by omega]
  simp only [chunks16Loop]
  rw [← hxl, List.take_left' h, List.drop_left' h]
  congr 1
  exact chunks16Loop_fuel (15 + rest.length) rest.length rest (by omega) (by omega)

lemma chunks16_flatten (bs : List (List Nat)) (h : ∀ b ∈ bs, b.length = 16) :
    chunks16 bs.flatten = bs := by
  induction bs with
  | nil => rfl
  | cons b bs ih =>
    rw [List.flatten_cons, chunks16_append b bs.flatten (h b (by simp)),
      ih (fun x hx => h x (by simp [hx]))]

lemma flatten_chunks16_loop : ∀ fuel l, l.length ≤ fuel → (chunks16Loop fuel l).flatten = l := by
  intro fuel
  induction fuel with
  | zero =>
    intro l h
    have : l = [] := List.length_eq_zero.mp (by omega)
    subst this
    rfl
  | succ fuel ih =>
    intro l h
    cases l with
    | nil => rfl
    | cons x l =>
      simp only [List.length_cons] at h
      simp only [chunks16Loop, List.flatten_cons]
      rw [ih ((x :: l).drop 16) (by simp only [List.length_drop, List.length_cons]; omega)]
      exact List.take_append_drop ..

lemma flatten_chunks16 (l : List Nat) : (chunks16 l).flatten = l :=
  flatten_chunks16_loop l.length l le_rfl

lemma chunks16_mem_ok_aux : ∀ (n : Nat) (l : List Nat), l.length = n → l.length % 16 = 0 →
    (∀ x ∈ l, x < 256) → ∀ b ∈ chunks16 l, b.length = 16 ∧ ∀ x ∈ b, x < 256 := by
  intro n
  induction n using Nat.strong_induction_on with
  | _ n ih =>
    intro l hn hmod hb
    cases l with
    | nil => simp [chunks16, chunks16Loop]
    | cons x rest =>
      have hlen16 : 16 ≤ (x :: rest).length := by
        rcases Nat.lt_or_ge (x :: rest).length 16 with hlt | hge
        · exfalso
          simp only [List.length_cons] at hlt hmod
          omega
        · exact hge
      have hsplit : (x :: rest).take 16 ++ (x :: rest).drop 16 = x :: rest :=
        List.take_append_drop ..
      have htk : ((x :: rest).take 16).length = 16 := by
        simp only [List.length_cons] at hlen16
        simp only [List.length_take, List.length_cons]
        omega
      intro b hb2
      rw [← hsplit, chunks16_append _ _ htk] at hb2
      simp only [List.mem_cons] at hb2
      rcases hb2 with rfl | hb2
      · exact ⟨htk, fun y hy => hb y (List.mem_of_mem_take hy)⟩
      · have hdlen : ((x :: rest).drop 16).length = (x :: rest).length - 16 := by simp
        refine ih ((x :: rest).drop 16).length ?_ ((x :: rest).drop 16) rfl ?_ ?_ b hb2
        · simp only [List.length_drop] at hdlen ⊢
          simp only [List.length_cons] at *
          omega
        · simp only [List.length_drop, List.length_cons] at *
          omega
        · exact fun y hy => hb y (List.mem_of_mem_drop hy)

lemma chunks16_mem_ok (l : List Nat) (hmod : l.length % 16 = 0) (hb : ∀ x ∈ l, x < 256) :
    ∀ b ∈ chunks16 l, b.length = 16 ∧ ∀ x ∈ b, x < 256 :=
  chunks16_mem_ok_aux l.length l rfl hmod hb

/-! ### Lemmas: JSON escaping and parsing -/

lemma strCodes_scalar (s : String) : ∀ x ∈ strCodes s, scalarValue x := by
  intro x hx
  simp only [strCodes, List.mem_map] at hx
  obtain ⟨ch, _, rfl⟩ := hx
  have hv := ch.valid
  unfold scalarValue
  simp only [Char.toNat]
  rcases hv with h | ⟨h1, h2⟩
  · exact Or.inl h
  · exact Or.inr ⟨by omega, by omega⟩

lemma hexDigit_lt128 (n : Nat) (h : n < 16) : hexDigit n < 128 := by
  rcases hexDigit_range n h with h1 | h1 <;> omega

lemma escapeChar_scalar (c : Nat) (h : jsChar c) : ∀ x ∈ escapeChar c, scalarValue x := by
  unfold jsChar at h
  unfold escapeChar
  have hd1 := hexDigit_lt128 (c / 4096 % 16) (by omega)
  have hd2 := hexDigit_lt128 (c / 256 % 16) (by omega)
  have hd3 := hexDigit_lt128 (c / 16 % 16) (by omega)
  have hd4 := hexDigit_lt128 (c % 16) (by omega)
  split_ifs with h1 h2 h3 h4 h5 h6 h7 h8 h9 <;> intro x hx <;>
    simp only [hex4, List.mem_cons, List.not_mem_nil, or_false] at hx <;>
    unfold scalarValue
  · rcases hx with rfl | rfl <;> omega
  · rcases hx with rfl | rfl <;> omega
  · rcases hx with rfl | rfl <;> omega
  · rcases hx with rfl | rfl <;> omega
  · rcases hx with rfl | rfl <;> omega
  · rcases hx with rfl | rfl <;> omega
  · rcases hx with rfl | rfl <;> omega
  · rcases hx with rfl | rfl | rfl | rfl | rfl | rfl <;> omega
  · rcases hx with rfl | rfl | rfl | rfl | rfl | rfl <;> omega
  · rcases hx with rfl
    omega

lemma escapeStr_scalar (s : List Nat) (h : ∀ n ∈ s, jsChar n) :
    ∀ x ∈ escapeStr s, scalarValue x := by
  intro x hx
  simp only [escapeStr, List.mem_flatMap] at hx
  obtain ⟨c, hc, hxc⟩ := hx
  exact escapeChar_scalar c (h c hc) x hxc

lemma quoteStr_scalar (s : List Nat) (h : ∀ n ∈ s, jsChar n) :
    ∀ x ∈ quoteStr s, scalarValue x := by
  intro x hx
  simp only [quoteStr, List.mem_cons, List.mem_append, List.mem_singleton] at hx
  have h34 : scalarValue 34 := by unfold scalarValue; omega
  rcases hx with (rfl | hx) | (rfl | hx)
  exacts [h34, escapeStr_scalar s h x hx, h34, absurd hx (List.not_mem_nil x)]

lemma jsonStringifyPayload_scalar (u c a : List Nat)
    (hu : ∀ n ∈ u, jsChar n) (hc : ∀ n ∈ c, jsChar n) (ha : ∀ n ∈ a, jsChar n) :
    ∀ x ∈ jsonStringifyPayload u c a, scalarValue x := by
  intro x hx
  unfold jsonStringifyPayload at hx
  rcases List.mem_append.mp hx with hx | hx
  rotate_left
  · rcases List.mem_singleton.mp hx with rfl
    unfold scalarValue
    omega
  rcases List.mem_append.mp hx with hx | hx
  rotate_left
  · exact quoteStr_scalar a ha x hx
  rcases List.mem_append.mp hx with hx | hx
  rotate_left
  · exact strCodes_scalar _ x hx
  rcases List.mem_append.mp hx with hx | hx
  rotate_left
  · exact quoteStr_scalar c hc x hx
  rcases List.mem_append.mp hx with hx | hx
  rotate_left
  · exact strCodes_scalar _ x hx
  rcases List.mem_append.mp hx with hx | hx
  rotate_left
  · exact quoteStr_scalar u hu x hx
  · exact strCodes_scalar _ x hx

lemma expectLit_append (pat rest : List Nat) : expectLit pat (pat ++ rest) = some rest := by
  unfold expectLit
  rw [List.take_left, if_pos rfl, List.drop_left]

lemma parseStrBody_escape (s rest : List Nat) (h : ∀ c ∈ s, jsChar c) :
    parseStrBody (escapeStr s ++ 34 :: rest) = some (s, rest) := by
  induction s with
  | nil =>
    rw [show escapeStr [] ++ 34 :: rest = 34 :: rest from rfl]
    rw [parseStrBody]
    rw [if_pos rfl]
  | cons c s ih =>
    have hc : jsChar c := h c (by simp)
    unfold jsChar at hc
    have ih2 := ih (fun x hx => h x (by simp [hx]))
    rw [show escapeStr (c :: s) = escapeChar c ++ escapeStr s from by simp [escapeStr],
      List.append_assoc]
    unfold escapeChar
    split_ifs with h1 h2 h3 h4 h5 h6 h7 h8 h9
    · subst h1
      simp [parseStrBody, unescapeSimple, ih2]
    · subst h2
      simp [parseStrBody, unescapeSimple, ih2]
    · subst h3
      simp [parseStrBody, unescapeSimple, ih2]
    · subst h4
      simp [parseStrBody, unescapeSimple, ih2]
    · subst h5
      simp [parseStrBody, unescapeSimple, ih2]
    · subst h6
      simp [parseStrBody, unescapeSimple, ih2]
    · subst h7
      simp [parseStrBody, unescapeSimple, ih2]
    · have e1 : hexVal (hexDigit (c / 4096 % 16)) = some (c / 4096 % 16) :=
        hexVal_hexDigit _ (by omega)
      have e2 : hexVal (hexDigit (c / 256 % 16)) = some (c / 256 % 16) :=
        hexVal_hexDigit _ (by omega)
      have e3 : hexVal (hexDigit (c / 16 % 16)) = some (c / 16 % 16) :=
        hexVal_hexDigit _ (by omega)
      have e4 : hexVal (hexDigit (c % 16)) = some (c % 16) :=
        hexVal_hexDigit _ (by omega)
      have hval : c / 4096 % 16 * 4096 + c / 256 % 16 * 256 + c / 16 % 16 * 16 + c % 16 = c := by
        have b1 : c / 256 = c / 16 / 16 := by rw [Nat.div_div_eq_div_mul]
        have b2 : c / 4096 = c / 256 / 16 := by rw [Nat.div_div_eq_div_mul]
        omega
      simp only [hex4, List.cons_append, List.nil_append]
      simp [parseStrBody, e1, e2, e3, e4, ih2, hval]
    · have e1 : hexVal (hexDigit (c / 4096 % 16)) = some (c / 4096 % 16) :=
        hexVal_hexDigit _ (by omega)
      have e2 : hexVal (hexDigit (c / 256 % 16)) = some (c / 256 % 16) :=
        hexVal_hexDigit _ (by omega)
      have e3 : hexVal (hexDigit (c / 16 % 16)) = some (c / 16 % 16) :=
        hexVal_hexDigit _ (by omega)
      have e4 : hexVal (hexDigit (c % 16)) = some (c % 16) :=
        hexVal_hexDigit _ (by omega)
      have hval : c / 4096 % 16 * 4096 + c / 256 % 16 * 256 + c / 16 % 16 * 16 + c % 16 = c := by
        have b1 : c / 256 = c / 16 / 16 := by rw [Nat.div_div_eq_div_mul]
        have b2 : c / 4096 = c / 256 / 16 := by rw [Nat.div_div_eq_div_mul]
        omega
      simp only [hex4, List.cons_append, List.nil_append]
      simp [parseStrBody, e1, e2, e3, e4, ih2, hval]
    · rw [show [c] ++ (escapeStr s ++ 34 :: rest) = c :: (escapeStr s ++ 34 :: rest) from rfl]
      rw [parseStrBody]
      rw [if_neg h1, if_neg h2, ih2]
      rfl

lemma parsePayload_jsonStringifyPayload (u c a : List Nat)
    (hu : ∀ n ∈ u, jsChar n) (hc : ∀ n ∈ c, jsChar n) (ha : ∀ n ∈ a, jsChar n) :
    parsePayload (jsonStringifyPayload u c a) = some (u, c, a) := by
  have hdecomp : jsonStringifyPayload u c a =
      strCodes "\x7b\"userId\":\"" ++ (escapeStr u ++ 34 ::
        (strCodes ",\"clientUUID\":\"" ++ (escapeStr c ++ 34 ::
          (strCodes ",\"apiKey\":\"" ++ (escapeStr a ++ 34 :: [125]))))) := by
    unfold jsonStringifyPayload quoteStr
    rw [show strCodes "\x7b\"userId\":" =
          [123, 34, 117, 115, 101, 114, 73, 100, 34, 58] from by decide,
      show strCodes ",\"clientUUID\":" =
          [44, 34, 99, 108, 105, 101, 110, 116, 85, 85, 73, 68, 34, 58] from by decide,
      show strCodes ",\"apiKey\":" =
          [44, 34, 97, 112, 105, 75, 101, 121, 34, 58] from by decide,
      show strCodes "\x7b\"userId\":\"" =
          [123, 34, 117, 115, 101, 114, 73, 100, 34, 58, 34] from by decide,
      show strCodes ",\"clientUUID\":\"" =
          [44, 34, 99, 108, 105, 101, 110, 116, 85, 85, 73, 68, 34, 58, 34] from by decide,
      show strCodes ",\"apiKey\":\"" =
          [44, 34, 97, 112, 105, 75, 101, 121, 34, 58, 34] from by decide]
    simp [List.append_assoc]
  rw [hdecomp]
  unfold parsePayload
  rw [expectLit_append, Option.some_bind, parseStrBody_escape u _ hu, Option.some_bind]
  simp only
  rw [expectLit_append, Option.some_bind, parseStrBody_escape c _ hc, Option.some_bind]
  simp only
  rw [expectLit_append, Option.some_bind, parseStrBody_escape a _ ha, Option.some_bind]
  simp

/-! ### The master decryption lemma -/

lemma flatten_len16 (bs : List (List Nat)) (h : ∀ b ∈ bs, b.length = 16) :
    bs.flatten.length = 16 * bs.length := by
  induction bs with
  | nil => rfl
  | cons b bs ih =>
    simp only [List.flatten_cons, List.length_append, List.length_cons,
      h b (by simp), ih (fun x hx => h x (by simp [hx]))]
    omega

lemma chunks16_ne_nil (l : List Nat) (h : l ≠ []) : chunks16 l ≠ [] := by
  cases l with
  | nil => exact absurd rfl h
  | cons x rest =>
    unfold chunks16
    simp only [List.length_cons, chunks16Loop]
    exact List.cons_ne_nil _ _

lemma scalar_jsChar (n : Nat) (h : scalarValue n) : jsChar n := by
  unfold scalarValue at h
  unfold jsChar
  omega

lemma decryptToken_kh (E D : List Nat → List Nat → List Nat) (t : List Nat)
    (n : SessionPayload) (ht : t.length = 16) (htb : ∀ x ∈ t, x < 256)
    (hu : ∀ x ∈ n.userId, jsChar x) (hcu : ∀ x ∈ n.clientUUID, jsChar x)
    (hED : BlockCipherOk (E (Th n.userId)) (D (Th n.userId))) :
    decryptToken D (kh E t n) n.userId = some (khPlainCodes n) := by
  have hcred : ∀ x ∈ Fl jr.r jr.m, jsChar x := by decide
  have hjson : ∀ x ∈ khPlainCodes n, scalarValue x :=
    jsonStringifyPayload_scalar n.userId n.clientUUID (Fl jr.r jr.m) hu hcu hcred
  have hjsonjs : ∀ x ∈ khPlainCodes n, jsChar x :=
    fun x hx => scalar_jsChar x (hjson x hx)
  set msg : List Nat := utf8Encode (khPlainCodes n) with hmsg
  have hmsgb : ∀ x ∈ msg, x < 256 := utf8Encode_bytes _ hjsonjs
  set padded : List Nat := pkcs7Pad msg with hpadded
  have hpadmod : padded.length % 16 = 0 := pkcs7Pad_length_mod msg
  have hpadne : padded ≠ [] := pkcs7Pad_ne_nil msg
  have hpadb : ∀ x ∈ padded, x < 256 := pkcs7Pad_bytes msg hmsgb
  set blocks : List (List Nat) := chunks16 padded with hblocks
  have hblocksok : ∀ b ∈ blocks, b.length = 16 ∧ ∀ x ∈ b, x < 256 :=
    chunks16_mem_ok padded hpadmod hpadb
  have hblocksne : blocks ≠ [] := chunks16_ne_nil padded hpadne
  set key : List Nat := Th n.userId with hkey
  set enc : List (List Nat) := cbcEncBlocks (E key) t blocks with henc
  have hencok : ∀ b ∈ enc, b.length = 16 ∧ ∀ x ∈ b, x < 256 :=
    cbcEncBlocks_ok (E key) (BlockCipherOk.toEnc _ (D key) hED) blocks t ⟨ht, htb⟩ hblocksok
  have henclen : enc.length = blocks.length := cbcEncBlocks_length ..
  set o : List Nat := enc.flatten with ho
  have hob : ∀ x ∈ o, x < 256 := by
    intro x hx
    rw [ho, List.mem_flatten] at hx
    obtain ⟨b, hb, hxb⟩ := hx
    exact (hencok b hb).2 x hxb
  have homod : o.length % 16 = 0 := by
    rw [ho, flatten_len16 enc (fun b hb => (hencok b hb).1)]
    omega
  have hone : o ≠ [] := by
    intro hx
    have hlen0 : o.length = 0 := by rw [hx]; rfl
    rw [ho, flatten_len16 enc (fun b hb => (hencok b hb).1), henclen] at hlen0
    have hbl0 : blocks.length = 0 := by omega
    exact hblocksne (List.length_eq_zero.mp hbl0)
  have hkh : kh E t n = hexEncode t ++ 58 :: hexEncode o := by
    rw [kh]
  rw [hkh]
  unfold decryptToken
  rw [splitFirstColon_append (hexEncode t) (hexEncode o) (hexEncode_ne_colon t htb),
    Option.some_bind]
  simp only
  rw [hexDecode_hexEncode t htb, Option.some_bind, hexDecode_hexEncode o hob,
    Option.some_bind]
  rw [if_pos ⟨homod, hone⟩]
  rw [show chunks16 o = enc from chunks16_flatten enc (fun b hb => (hencok b hb).1)]
  rw [show cbcDecBlocks (D key) t enc = blocks from
    cbcDecBlocks_cbcEncBlocks (E key) (D key) hED blocks t ⟨ht, htb⟩ hblocksok]
  rw [show (blocks : List (List Nat)).flatten = padded from flatten_chunks16 padded]
  rw [pkcs7Unpad_pkcs7Pad msg, Option.some_bind]
  rw [utf8DecodeLenient_utf8Encode (khPlainCodes n) hjson]

lemma decryptPayload_kh (E D : List Nat → List Nat → List Nat) (t : List Nat)
    (n : SessionPayload) (ht : t.length = 16) (htb : ∀ x ∈ t, x < 256)
    (hu : ∀ x ∈ n.userId, jsChar x) (hcu : ∀ x ∈ n.clientUUID, jsChar x)
    (hED : BlockCipherOk (E (Th n.userId)) (D (Th n.userId))) :
    decryptPayload D (kh E t n) n.userId =
      some (n.userId, n.clientUUID, Fl jr.r jr.m) := by
  unfold decryptPayload
  rw [decryptToken_kh E D t n ht htb hu hcu hED, Option.some_bind]
  exact parsePayload_jsonStringifyPayload n.userId n.clientUUID (Fl jr.r jr.m) hu hcu
    (by decide)

/-! ### The ciphertext of `kh` -/

/-- The ciphertext bytes produced inside `kh` (the CBC output `o`). -/
def khCt (E : List Nat → List Nat → List Nat) (t : List Nat) (n : SessionPayload) : List Nat :=
  (cbcEncBlocks (E (Th n.userId)) t (chunks16 (pkcs7Pad (utf8Encode (khPlainCodes n))))).flatten

lemma kh_eq_ct (E : List Nat → List Nat → List Nat) (t : List Nat) (n : SessionPayload) :
    kh E t n = hexEncode t ++ 58 :: hexEncode (khCt E t n) := rfl

lemma khCt_ok (E : List Nat → List Nat → List Nat) (t : List Nat) (n : SessionPayload)
    (ht : t.length = 16) (htb : ∀ x ∈ t, x < 256)
    (hu : ∀ x ∈ n.userId, jsChar x) (hcu : ∀ x ∈ n.clientUUID, jsChar x)
    (hE : BlockEncOk (E (Th n.userId))) :
    (∀ x ∈ khCt E t n, x < 256) ∧ (khCt E t n).length % 16 = 0 ∧ khCt E t n ≠ [] := by
  have hcred : ∀ x ∈ Fl jr.r jr.m, jsChar x := by decide
  have hjson : ∀ x ∈ khPlainCodes n, scalarValue x :=
    jsonStringifyPayload_scalar n.userId n.clientUUID (Fl jr.r jr.m) hu hcu hcred
  have hjsonjs : ∀ x ∈ khPlainCodes n, jsChar x :=
    fun x hx => scalar_jsChar x (hjson x hx)
  have hmsgb : ∀ x ∈ utf8Encode (khPlainCodes n), x < 256 := utf8Encode_bytes _ hjsonjs
  have hpadmod := pkcs7Pad_length_mod (utf8Encode (khPlainCodes n))
  have hpadne := pkcs7Pad_ne_nil (utf8Encode (khPlainCodes n))
  have hpadb := pkcs7Pad_bytes (utf8Encode (khPlainCodes n)) hmsgb
  have hblocksok := chunks16_mem_ok (pkcs7Pad (utf8Encode (khPlainCodes n))) hpadmod hpadb
  have hblocksne := chunks16_ne_nil (pkcs7Pad (utf8Encode (khPlainCodes n))) hpadne
  have hencok := cbcEncBlocks_ok (E (Th n.userId)) hE
    (chunks16 (pkcs7Pad (utf8Encode (khPlainCodes n)))) t ⟨ht, htb⟩ hblocksok
  have henclen := cbcEncBlocks_length (E (Th n.userId)) t
    (chunks16 (pkcs7Pad (utf8Encode (khPlainCodes n))))
  refine ⟨?_, ?_, ?_⟩
  · intro x hx
    rw [khCt, List.mem_flatten] at hx
    obtain ⟨b, hb, hxb⟩ := hx
    exact (hencok b hb).2 x hxb
  · rw [khCt, flatten_len16 _ (fun b hb => (hencok b hb).1)]
    omega
  · intro hx
    have hlen0 : (khCt E t n).length = 0 := by rw [hx]; rfl
    rw [khCt, flatten_len16 _ (fun b hb => (hencok b hb).1), henclen] at hlen0
    have hbl0 : (chunks16 (pkcs7Pad (utf8Encode (khPlainCodes n)))).length = 0 := by omega
    exact hblocksne (List.length_eq_zero.mp hbl0)

/-! ### Claim theorems -/

lemma getD_eq_getElem (l : List Nat) (i : Nat) (h : i < l.length) : l.getD i 0 = l[i] := by
  rw [List.getD_eq_getElem?_getD, List.getElem?_eq_getElem h]
  rfl

/-- Claim C9: in both baked-in constant tables (the salt table `Hr` and the
credential table `jr`), the permutation array `m` has the same length as the
value array `r` and every index in `[0, len r)` appears in `m` exactly
once (i.e. `m` is a bijection on that range). -/
theorem C9_constant_table_invariant :
    (Hr.m.length = Hr.r.length ∧ ∀ i < Hr.r.length, Hr.m.count i = 1) ∧
    (jr.m.length = jr.r.length ∧ ∀ i < jr.r.length, jr.m.count i = 1) := by
  decide

/-- Claim C3: the derived key of every `userId` equals PBKDF2 with the
HMAC-SHA-256 pseudorandom function, password = the UTF-8 bytes of `userId`,
salt = the descrambler output for the first constant table, 100000
iterations and 32 output bytes; it refines the spec-side definition, and
the same `userId` always yields the same key. -/
theorem C3_key_derivation (u : List Nat) :
    Th u = pbkdf2HmacSha256 (utf8Encode u) (utf8Encode (Fl Hr.r Hr.m)) 100000 32 ∧
    Th u = derive_key_spec u ∧
    ∀ v : List Nat, u = v → Th u = Th v :=
  ⟨rfl, rfl, fun _ h => by rw [h]⟩

/-- Witness for C3 at the concrete `userId` `"u1"`. -/
theorem C3_key_derivation_witness : Th (strCodes "u1") = Th (strCodes "u1") :=
  (C3_key_derivation (strCodes "u1")).2.2 (strCodes "u1") rfl

/-- Counterexample for claim C6: the table `r = [255]`, `m = [0]` unscrambles
to the byte sequence `[255]`, which is malformed UTF-8, yet the descrambler
does not fail: it silently returns a value (the empty string), because
Node's decoders replace invalid UTF-8 with U+FFFD and skip non-alphabet
base64 characters. -/
theorem C6_counterexample :
    Ah [255] [0] = [255] ∧ utf8ValidBytes (Ah [255] [0]) = false ∧ Fl [255] [0] = [] := by
  decide

/-- Claim C6 (amended): on a constant table whose unscrambled bytes are
malformed UTF-8, the descrambler does not fail with an error; it silently
recovers, returning the result of the lenient decode pipeline (U+FFFD
replacement, non-alphabet base64 characters skipped). -/
theorem C6_silent_recovery (r m : List Nat) (h : utf8ValidBytes (Ah r m) = false) :
    Fl r m = utf8DecodeLenient (List.reverse (base64DecodeLenient (utf8DecodeLenient (Ah r m)))) :=
  rfl

/-- Witness for the amended C6 at the malformed table `([255], [0])`. -/
theorem C6_silent_recovery_witness :
    Fl [255] [0] =
      utf8DecodeLenient (List.reverse (base64DecodeLenient (utf8DecodeLenient (Ah [255] [0])))) :=
  C6_silent_recovery [255] [0] (by decide)

/-- Claim C10: the plaintext the encipherer serializes is exactly the
compact JSON text `\x7b"userId":…,"clientUUID":…,"apiKey":…\x7d` with keys in
that fixed order, no whitespace, the two payload fields JSON-quoted, and
`apiKey` equal on every call to the fixed credential descrambled from the
second constant table. -/
theorem C10_plaintext_wire_shape (u c : List Nat) :
    khPlainCodes { userId := u, clientUUID := c } =
      strCodes "\x7b\"userId\":" ++ quoteStr u ++
      strCodes ",\"clientUUID\":" ++ quoteStr c ++
      strCodes ",\"apiKey\":\"6ce819f5dcc039febae2420016f148be28ef78389fc76790fb0671ab3c8925db\"\x7d" := by
  have htail : strCodes ",\"apiKey\":" ++ (quoteStr (Fl jr.r jr.m) ++ [125]) =
      strCodes ",\"apiKey\":\"6ce819f5dcc039febae2420016f148be28ef78389fc76790fb0671ab3c8925db\"\x7d" := by
    decide
  unfold khPlainCodes jsonStringifyPayload
  simp only [List.append_assoc]
  rw [htail]

/-- Claim C4: for a constant table `(r, m)` with `m` a bijection of the
same length as `r`, the descrambler builds the array `t = Ah r m` of length
`len r` with `t[m[s]] = r[s]` for each source index `s`, and returns the
UTF-8 decoding of the reversed bytes of the base64 decoding of the UTF-8
text of `t`. -/
theorem C4_descrambler_algorithm (r m : List Nat) (hlen : m.length = r.length)
    (hb : ∀ i, i < m.length → m.getD i 0 < r.length)
    (hinj : ∀ i < m.length, ∀ j < m.length, m.getD i 0 = m.getD j 0 → i = j)
    (hsurj : ∀ j < r.length, ∃ s, s < m.length ∧ m.getD s 0 = j) :
    (Ah r m).length = r.length ∧
    (∀ s, s < m.length → (Ah r m).getD (m.getD s 0) 0 = r.getD s 0) ∧
    Fl r m =
      utf8DecodeLenient (List.reverse (base64DecodeLenient (utf8DecodeLenient (Ah r m)))) := by
  refine ⟨Ah_length r m, ?_, rfl⟩
  intro s hs
  have hbound : m[s] < r.length := by
    have := hb s hs
    rwa [getD_eq_getElem m s hs] at this
  have h1 : (Ah r m)[m[s]]? = some r[s] := by
    apply Ah_getElem? r m s hs hlen
    · intro i hi
      have := hb i hi
      rwa [getD_eq_getElem m i hi] at this
    · intro i j hi hj hij
      exact hinj i hi j hj (by rw [getD_eq_getElem m i hi, getD_eq_getElem m j hj, hij])
  rw [getD_eq_getElem m s hs, List.getD_eq_getElem?_getD, h1,
    getD_eq_getElem r s (by omega)]
  rfl

/-- Witness for C4 at the concrete salt table `Hr`. -/
theorem C4_descrambler_algorithm_witness :
    (Ah Hr.r Hr.m).length = Hr.r.length ∧
    (∀ s, s < Hr.m.length → (Ah Hr.r Hr.m).getD (Hr.m.getD s 0) 0 = Hr.r.getD s 0) ∧
    Fl Hr.r Hr.m =
      utf8DecodeLenient
        (List.reverse (base64DecodeLenient (utf8DecodeLenient (Ah Hr.r Hr.m)))) :=
  C4_descrambler_algorithm Hr.r Hr.m (by decide) (by decide) (by decide) (by decide)

/-- Claim C5: if a table `(r, m)` was produced by the forward scrambling
procedure — `t` is the base64 text of the reversed UTF-8 bytes of the
secret and `r[s] = t[m[s]]` — with `m` a bijection on `[0, len t)`, then
descrambling `(r, m)` returns exactly the original pre-scramble secret;
and in the small seed case the permutation `[1, 0]` over two values swaps
the two positions. -/
theorem C5_descrambler_roundtrip (secret m : List Nat)
    (hsec : ∀ x ∈ secret, scalarValue x)
    (hlen : m.length = (base64Encode (utf8Encode secret).reverse).length)
    (hb : ∀ i, i < m.length →
      m.getD i 0 < (base64Encode (utf8Encode secret).reverse).length)
    (hinj : ∀ i < m.length, ∀ j < m.length, m.getD i 0 = m.getD j 0 → i = j)
    (hsurj : ∀ j < (base64Encode (utf8Encode secret).reverse).length,
      ∃ s, s < m.length ∧ m.getD s 0 = j) :
    Fl (scrambleSpec secret m) m = secret ∧ ∀ x y : Nat, Ah [x, y] [1, 0] = [y, x] := by
  constructor
  · set T : List Nat := base64Encode (utf8Encode secret).reverse with hT
    have hAh : Ah (scrambleSpec secret m) m = T := by
      apply Ah_scatter_eq T m hlen
      · intro i hi
        have := hb i hi
        rwa [getD_eq_getElem m i hi] at this
      · intro i j hi hj hij
        exact hinj i hi j hj (by rw [getD_eq_getElem m i hi, getD_eq_getElem m j hj, hij])
      · intro j hj
        obtain ⟨s, hs, hms⟩ := hsurj j hj
        exact ⟨s, hs, by rwa [getD_eq_getElem m s hs] at hms⟩
    unfold Fl
    rw [hAh]
    rw [utf8DecodeLenient_ascii T (fun b hb2 => base64Encode_lt128 _ b hb2)]
    rw [base64DecodeLenient_base64Encode (utf8Encode secret).reverse
      (fun b hb2 => utf8Encode_bytes secret (fun x hx => scalar_jsChar x (hsec x hx)) b
        (List.mem_reverse.mp hb2))]
    rw [List.reverse_reverse]
    exact utf8DecodeLenient_utf8Encode secret hsec
  · intro x y
    rfl

/-- Witness for C5 at the secret `"hi"` and the permutation `[2, 0, 3, 1]`
(and the seed swap at `(10, 20)` via the general second conjunct). -/
theorem C5_descrambler_roundtrip_witness :
    Fl (scrambleSpec (strCodes "hi") [2, 0, 3, 1]) [2, 0, 3, 1] = strCodes "hi" ∧
    ∀ x y : Nat, Ah [x, y] [1, 0] = [y, x] :=
  C5_descrambler_roundtrip (strCodes "hi") [2, 0, 3, 1] (by decide) (by decide) (by decide)
    (by decide) (by decide)

/-- Claim C1: for every payload `\x7buserId, clientUUID\x7d`, decrypting the
encipherer's output — IV taken from the field before the first colon,
AES-256-CBC decryption under the key derived from the same `userId`,
PKCS#7 unpadding — recovers JSON whose `userId` and `clientUUID` equal the
original fields and whose `apiKey` equals the fixed credential recovered by
descrambling the second constant table. -/
theorem C1_encrypt_decrypt_roundtrip (E D : List Nat → List Nat → List Nat)
    (t : List Nat) (n : SessionPayload) (ht : t.length = 16)
    (htb : ∀ x ∈ t, x < 256) (hu : ∀ x ∈ n.userId, jsChar x)
    (hcu : ∀ x ∈ n.clientUUID, jsChar x)
    (hED : BlockCipherOk (E (Th n.userId)) (D (Th n.userId))) :
    decryptPayload D (kh E t n) n.userId =
      some (n.userId, n.clientUUID, Fl jr.r jr.m) :=
  decryptPayload_kh E D t n ht htb hu hcu hED

/-- Witness for C1 with the identity block cipher, a concrete IV and the
payload `("u1", "c1")`. -/
theorem C1_encrypt_decrypt_roundtrip_witness :
    decryptPayload (fun _ b => b)
      (kh (fun _ b => b) [0, 1, 2, 3, 4, 5, 6, 7, 8, 9, 10, 11, 12, 13, 14, 15]
        { userId := strCodes "u1", clientUUID := strCodes "c1" }) (strCodes "u1") =
      some (strCodes "u1", strCodes "c1", Fl jr.r jr.m) :=
  C1_encrypt_decrypt_roundtrip (fun _ b => b) (fun _ b => b)
    [0, 1, 2, 3, 4, 5, 6, 7, 8, 9, 10, 11, 12, 13, 14, 15]
    { userId := strCodes "u1", clientUUID := strCodes "c1" }
    (by decide) (by decide) (by decide) (by decide)
    (fun b h1 h2 => ⟨h1, h2, rfl⟩)

/-- A lowercase hexadecimal digit character code (`0`–`9` or `a`–`f`). -/
def isLowerHexDigit (c : Nat) : Prop :=
  (48 ≤ c ∧ c ≤ 57) ∨ (97 ≤ c ∧ c ≤ 102)

/-- Claim C2: the string returned by the identifier-issuance routine splits
into exactly three colon-separated fields: field 1 is exactly 24 lowercase
hex characters (the 12-byte nonce), field 2 exactly 32 lowercase hex
characters (the 16-byte IV), and field 3 a non-empty even-length lowercase
hex string (the ciphertext). -/
theorem C2_identifier_format (E : List Nat → List Nat → List Nat)
    (nonce iv u c : List Nat)
    (hn : nonce.length = 12) (hnb : ∀ x ∈ nonce, x < 256)
    (hiv : iv.length = 16) (hivb : ∀ x ∈ iv, x < 256)
    (hu : ∀ x ∈ u, jsChar x) (hc : ∀ x ∈ c, jsChar x)
    (hE : BlockEncOk (E (Th u))) :
    ∃ f1 f2 f3 : List Nat,
      splitColons (get_identifier E nonce iv u c) = [f1, f2, f3] ∧
      f1.length = 24 ∧ (∀ ch ∈ f1, isLowerHexDigit ch) ∧
      f2.length = 32 ∧ (∀ ch ∈ f2, isLowerHexDigit ch) ∧
      f3 ≠ [] ∧ f3.length % 2 = 0 ∧ (∀ ch ∈ f3, isLowerHexDigit ch) := by
  obtain ⟨hctb, hctmod, hctne⟩ :=
    khCt_ok E iv { userId := u, clientUUID := c } hiv hivb hu hc hE
  refine ⟨hexEncode nonce, hexEncode iv,
    hexEncode (khCt E iv { userId := u, clientUUID := c }), ?_, ?_, ?_, ?_, ?_, ?_, ?_, ?_⟩
  · unfold get_identifier
    rw [H7t_eq_hexEncode, kh_eq_ct,
      splitColons_append (hexEncode nonce) _ (hexEncode_ne_colon nonce hnb),
      splitColons_append (hexEncode iv) _ (hexEncode_ne_colon iv hivb),
      splitColons_nocolon _ (hexEncode_ne_colon _ hctb)]
  · rw [hexEncode_length, hn]
  · exact fun ch hch => hexEncode_mem_range nonce hnb ch hch
  · rw [hexEncode_length, hiv]
  · exact fun ch hch => hexEncode_mem_range iv hivb ch hch
  · intro hx
    have h0 : (hexEncode (khCt E iv { userId := u, clientUUID := c })).length = 0 := by
      rw [hx]; rfl
    rw [hexEncode_length] at h0
    exact hctne (List.length_eq_zero.mp (by omega))
  · rw [hexEncode_length]
    omega
  · exact fun ch hch => hexEncode_mem_range _ hctb ch hch

/-- Witness for C2 with the identity block cipher and concrete nonce, IV
and payload. -/
theorem C2_identifier_format_witness :
    ∃ f1 f2 f3 : List Nat,
      splitColons (get_identifier (fun _ b => b) [0, 1, 2, 3, 4, 5, 6, 7, 8, 9, 10, 11]
        [0, 1, 2, 3, 4, 5, 6, 7, 8, 9, 10, 11, 12, 13, 14, 15]
        (strCodes "u1") (strCodes "c1")) = [f1, f2, f3] ∧
      f1.length = 24 ∧ (∀ ch ∈ f1, isLowerHexDigit ch) ∧
      f2.length = 32 ∧ (∀ ch ∈ f2, isLowerHexDigit ch) ∧
      f3 ≠ [] ∧ f3.length % 2 = 0 ∧ (∀ ch ∈ f3, isLowerHexDigit ch) :=
  C2_identifier_format (fun _ b => b) [0, 1, 2, 3, 4, 5, 6, 7, 8, 9, 10, 11]
    [0, 1, 2, 3, 4, 5, 6, 7, 8, 9, 10, 11, 12, 13, 14, 15]
    (strCodes "u1") (strCodes "c1") (by decide) (by decide) (by decide) (by decide)
    (by decide) (by decide) (fun b h1 h2 => ⟨h1, h2⟩)

/-- Claim C7: two calls of the encipherer on the same payload whose random
16-byte IVs differ produce different token strings, yet both decrypt, under
the key derived from the same `userId`, to the same plaintext. -/
theorem C7_ciphertext_freshness (E D : List Nat → List Nat → List Nat)
    (n : SessionPayload) (iv1 iv2 : List Nat) (hne : iv1 ≠ iv2)
    (h1 : iv1.length = 16) (h1b : ∀ x ∈ iv1, x < 256)
    (h2 : iv2.length = 16) (h2b : ∀ x ∈ iv2, x < 256)
    (hu : ∀ x ∈ n.userId, jsChar x) (hcu : ∀ x ∈ n.clientUUID, jsChar x)
    (hED : BlockCipherOk (E (Th n.userId)) (D (Th n.userId))) :
    kh E iv1 n ≠ kh E iv2 n ∧
    decryptToken D (kh E iv1 n) n.userId = some (khPlainCodes n) ∧
    decryptToken D (kh E iv2 n) n.userId = some (khPlainCodes n) := by
  refine ⟨?_, decryptToken_kh E D iv1 n h1 h1b hu hcu hED,
    decryptToken_kh E D iv2 n h2 h2b hu hcu hED⟩
  intro heq
  rw [kh_eq_ct, kh_eq_ct] at heq
  have hlenfields : (hexEncode iv1).length = (hexEncode iv2).length := by
    rw [hexEncode_length, hexEncode_length, h1, h2]
  have hfe := (List.append_inj heq hlenfields).1
  have hd1 := hexDecode_hexEncode iv1 h1b
  have hd2 := hexDecode_hexEncode iv2 h2b
  rw [hfe, hd2] at hd1
  exact hne (Option.some.inj hd1).symm

/-- Witness for C7 with the identity block cipher and two concrete IVs
differing in their first byte. -/
theorem C7_ciphertext_freshness_witness :
    kh (fun _ b => b) [0, 1, 2, 3, 4, 5, 6, 7, 8, 9, 10, 11, 12, 13, 14, 15]
        { userId := strCodes "u1", clientUUID := strCodes "c1" } ≠
      kh (fun _ b => b) [1, 1, 2, 3, 4, 5, 6, 7, 8, 9, 10, 11, 12, 13, 14, 15]
        { userId := strCodes "u1", clientUUID := strCodes "c1" } ∧
    decryptToken (fun _ b => b)
      (kh (fun _ b => b) [0, 1, 2, 3, 4, 5, 6, 7, 8, 9, 10, 11, 12, 13, 14, 15]
        { userId := strCodes "u1", clientUUID := strCodes "c1" }) (strCodes "u1") =
      some (khPlainCodes { userId := strCodes "u1", clientUUID := strCodes "c1" }) ∧
    decryptToken (fun _ b => b)
      (kh (fun _ b => b) [1, 1, 2, 3, 4, 5, 6, 7, 8, 9, 10, 11, 12, 13, 14, 15]
        { userId := strCodes "u1", clientUUID := strCodes "c1" }) (strCodes "u1") =
      some (khPlainCodes { userId := strCodes "u1", clientUUID := strCodes "c1" }) :=
  C7_ciphertext_freshness (fun _ b => b) (fun _ b => b)
    { userId := strCodes "u1", clientUUID := strCodes "c1" }
    [0, 1, 2, 3, 4, 5, 6, 7, 8, 9, 10, 11, 12, 13, 14, 15]
    [1, 1, 2, 3, 4, 5, 6, 7, 8, 9, 10, 11, 12, 13, 14, 15]
    (by decide) (by decide) (by decide) (by decide) (by decide) (by decide) (by decide)
    (fun b hb1 hb2 => ⟨hb1, hb2, rfl⟩)

/-- Claim C8: the portion of the issued identifier after the first colon is
computed without reference to the nonce: for any two values of the 12
random nonce bytes, with all other inputs equal, the token part after the
first colon is identical (and equals the encipherer's output); the nonce is
only a prefix. -/
theorem C8_nonce_independence (E : List Nat → List Nat → List Nat)
    (nonce1 nonce2 iv u c : List Nat)
    (hn1 : nonce1.length = 12) (hn1b : ∀ x ∈ nonce1, x < 256)
    (hn2 : nonce2.length = 12) (hn2b : ∀ x ∈ nonce2, x < 256) :
    (splitFirstColon (get_identifier E nonce1 iv u c)).map Prod.snd =
      (splitFirstColon (get_identifier E nonce2 iv u c)).map Prod.snd ∧
    (splitFirstColon (get_identifier E nonce1 iv u c)).map Prod.snd =
      some (kh E iv { userId := u, clientUUID := c }) := by
  have hsp : ∀ nonce : List Nat, (∀ x ∈ nonce, x < 256) →
      splitFirstColon (get_identifier E nonce iv u c) =
        some (H7t nonce, kh E iv { userId := u, clientUUID := c }) := by
    intro nonce hb
    unfold get_identifier
    rw [H7t_eq_hexEncode]
    exact splitFirstColon_append _ _ (hexEncode_ne_colon nonce hb)
  rw [hsp nonce1 hn1b, hsp nonce2 hn2b]
  exact ⟨rfl, rfl⟩

/-- Witness for C8 with two concrete distinct nonces. -/
theorem C8_nonce_independence_witness :
    (splitFirstColon (get_identifier (fun _ b => b) [0, 1, 2, 3, 4, 5, 6, 7, 8, 9, 10, 11]
        [0, 1, 2, 3, 4, 5, 6, 7, 8, 9, 10, 11, 12, 13, 14, 15]
        (strCodes "u1") (strCodes "c1"))).map Prod.snd =
      (splitFirstColon (get_identifier (fun _ b => b) [11, 10, 9, 8, 7, 6, 5, 4, 3, 2, 1, 0]
        [0, 1, 2, 3, 4, 5, 6, 7, 8, 9, 10, 11, 12, 13, 14, 15]
        (strCodes "u1") (strCodes "c1"))).map Prod.snd ∧
    (splitFirstColon (get_identifier (fun _ b => b) [0, 1, 2, 3, 4, 5, 6, 7, 8, 9, 10, 11]
        [0, 1, 2, 3, 4, 5, 6, 7, 8, 9, 10, 11, 12, 13, 14, 15]
        (strCodes "u1") (strCodes "c1"))).map Prod.snd =
      some (kh (fun _ b => b) [0, 1, 2, 3, 4, 5, 6, 7, 8, 9, 10, 11, 12, 13, 14, 15]
        { userId := strCodes "u1", clientUUID := strCodes "c1" }) :=
  C8_nonce_independence (fun _ b => b) [0, 1, 2, 3, 4, 5, 6, 7, 8, 9, 10, 11]
    [11, 10, 9, 8, 7, 6, 5, 4, 3, 2, 1, 0]
    [0, 1, 2, 3, 4, 5, 6, 7, 8, 9, 10, 11, 12, 13, 14, 15]
    (strCodes "u1") (strCodes "c1") (by decide) (by decide) (by decide) (by decide)
